import Mathlib

/-!
Verification of the roll-expression evaluation engine of the
RPG_Stat_Calculator repository.

The development shallowly embeds the final variant of the engine
(`src/rpg_stat_calculator/roll/BaseRoll.py`, `DieRoll.py`, `MaxRoll.py`,
`MinRoll.py`, `combiners.py`) together with the earlier
`lib_stat/__init__.py` variant where a claim refers to it.

Modelling conventions:
- Python float probabilities are modelled as exact rationals.
- A Python dict of tags is modelled as an association list whose
  semantics is the lookup-with-default-0 function, exactly as the code
  compares tag dicts key-wise with `get(tag, 0)`.
- Fallible Python code (raising exceptions) is modelled with `Except`
  over an error-kind type mirroring the Python exception classes.
- The list of children of a `BaseRoll` is modelled with the mutual
  inductive `RollList` so that the recursion of `get_distribution`
  stays structural and kernel-computable.
-/

namespace RollCalc

/-- Python exception classes that the modelled code can raise.
`nonIntegerResult` marks the one spot where the Python code silently
leaves the integer domain (`a ** b` with a negative exponent produces
a float); the model treats that as outside the modelled domain. -/
inductive PyErrorKind where
  | typeError
  | notImplementedError
  | valueError
  | zeroDivisionError
  | indexError
  | nonIntegerResult
deriving DecidableEq, Repr

/-- ArithmeticError/ValueError family that the design document groups
under the name DomainError: invalid mathematical operations. -/
def PyErrorKind.isDomainError : PyErrorKind → Bool
  | .valueError => true
  | .zeroDivisionError => true
  | _ => false

/-- Membership in the Python TypeError class. -/
def PyErrorKind.isTypeErrorClass : PyErrorKind → Bool
  | .typeError => true
  | _ => false

instance exceptDecEq {ε α : Type} [DecidableEq ε] [DecidableEq α] :
    DecidableEq (Except ε α)
  | .ok a, .ok b =>
      if h : a = b then isTrue (by rw [h])
      else isFalse (fun hc => h (Except.ok.inj hc))
  | .ok _, .error _ => isFalse (fun hc => Except.noConfusion hc)
  | .error _, .ok _ => isFalse (fun hc => Except.noConfusion hc)
  | .error e, .error f =>
      if h : e = f then isTrue (by rw [h])
      else isFalse (fun hc => h (Except.error.inj hc))

/-- A tag dict: mapping from tag name to integer count, modelled as an
association list. -/
abbrev TagSet := List (String × Int)

/-- Python `tags.get(tag, 0)`: lookup with default 0. -/
def tget (t : TagSet) (k : String) : Int :=
  match t.find? (fun p => p.1 == k) with
  | some p => p.2
  | none => 0

/-- Keys of a tag dict. -/
def tkeys (t : TagSet) : List String := t.map Prod.fst

/-- Key-wise equality of tag dicts, as the source checks it:
`all(t1.get(tag, 0) == t2.get(tag, 0) for tag in union of keys)`
(`_equal_tag_dicts` in `lib_stat/__init__.py`, inlined in
`BaseRoll.get_distribution`). -/
def tagsEqual (t1 t2 : TagSet) : Bool :=
  (tkeys t1 ++ tkeys t2).all (fun k => tget t1 k == tget t2 k)

/-- One `(value, probability, tags)` triple of a distribution
(`RollValue` in `roll_types.py`). -/
structure RollValue where
  value : Int
  probability : ℚ
  tags : TagSet
deriving DecidableEq, Repr

/-- A distribution: list of roll values (`Distribution` in
`roll_types.py`). -/
abbrev Distribution := List RollValue

/-- A combiner: takes one outcome per child, produces one outcome, may
raise. -/
abbrev Combiner := List RollValue → Except PyErrorKind RollValue

mutual
/-- The roll-node tree: a leaf owning its distribution (`DieRoll`) or
an inner `BaseRoll` with children and a combiner. -/
inductive Roll where
  | leaf (dist : Distribution)
  | node (children : RollList) (comb : Combiner)
/-- The list of children of a `BaseRoll`. -/
inductive RollList where
  | nil
  | cons (head : Roll) (tail : RollList)
end

/-- View a `RollList` as a plain list. -/
def RollList.toList : RollList → List Roll
  | .nil => []
  | .cons r rs => r :: rs.toList

/-- Build a `RollList` from a plain list. -/
def RollList.ofList : List Roll → RollList
  | [] => .nil
  | r :: rs => .cons r (RollList.ofList rs)

@[simp] theorem RollList.toList_ofList (l : List Roll) :
    (RollList.ofList l).toList = l := by
  induction l with
  | nil => rfl
  | cons r rs ih => simp [RollList.ofList, RollList.toList, ih]

/-- Sum of the probability fields of a distribution. -/
def probSum (d : Distribution) : ℚ := (d.map (fun o => o.probability)).sum

/-- The cartesian product of the children outcome spaces in the order
`numpy.ndindex` enumerates it (last index fastest). -/
def cartesian {α : Type} : List (List α) → List (List α)
  | [] => [[]]
  | d :: ds => d.flatMap (fun x => (cartesian ds).map (fun t => x :: t))

/-- The accumulation step of `BaseRoll.get_distribution`: find an
existing outcome with equal value and key-wise equal tags; if found add
the probability into it, otherwise append the new outcome. -/
def addOutcome : Distribution → RollValue → Distribution
  | [], o => [o]
  | d :: ds, o =>
      if d.value = o.value ∧ tagsEqual d.tags o.tags then
        { d with probability := d.probability + o.probability } :: ds
      else
        d :: addOutcome ds o

/-- Enumerate the cartesian product through the combiner and merge the
results, failing as soon as the combiner fails on a reached tuple. -/
def enumMerge (comb : Combiner) (ds : List Distribution) :
    Except PyErrorKind Distribution :=
  (cartesian ds).foldlM
    (fun acc t => do
      let v ← comb t
      pure (addOutcome acc v)) []

/-- `tag_combiner_additive` from `combiners.py`: the union of the keys,
each mapped to the sum of its counts across the inputs.  Python iterates
a set here whose order is unspecified; the model uses first-appearance
order, which is immaterial because tag dicts are compared key-wise. -/
def tag_combiner_additive (ts : List TagSet) : TagSet :=
  ((ts.map tkeys).foldl (fun a b => a ++ b) []).dedup.map
    (fun k => (k, (ts.map (fun t => tget t k)).sum))

/-- `combiner_from_value_and_tag_combiner` from `combiners.py`: the
result value comes from the value combiner, the probability is the
product of the input probabilities (`reduce(mul, probs, 1)`), the tags
come from the tag combiner. -/
def combiner_from_value_and_tag_combiner
    (v : List RollValue → Except PyErrorKind Int)
    (tc : List RollValue → TagSet) : Combiner :=
  fun rolls => do
    let val ← v rolls
    .ok ⟨val, (rolls.map (fun r => r.probability)).foldl (fun a b => a * b) 1,
         tc rolls⟩

/-- `combiner_from_value_combiner` from `combiners.py`: additive tag
combination. -/
def combiner_from_value_combiner
    (v : List RollValue → Except PyErrorKind Int) : Combiner :=
  combiner_from_value_and_tag_combiner v
    (fun rolls => tag_combiner_additive (rolls.map (fun r => r.tags)))

/-- `combiner_add`: sum of the input values. -/
def combiner_add : Combiner :=
  combiner_from_value_combiner (fun vs => .ok (vs.map (fun v => v.value)).sum)

/-- `combiner_sub`: first value minus the sum of the rest
(`values[0]["value"] - sum(values[1:])`); an empty argument list would
be a Python IndexError. -/
def combiner_sub : Combiner :=
  combiner_from_value_combiner (fun vs =>
    match vs with
    | [] => .error .indexError
    | a :: rest => .ok (a.value - (rest.map (fun v => v.value)).sum))

/-- `combiner_mul`: product of the input values
(`reduce(mul, values, 1)`). -/
def combiner_mul : Combiner :=
  combiner_from_value_combiner (fun vs =>
    .ok ((vs.map (fun v => v.value)).foldl (fun a b => a * b) 1))

/-- Python `round`: round half to even, on the exact rational value of
the float division. -/
def pyRound (q : ℚ) : Int :=
  if q - (⌊q⌋ : ℚ) < 1/2 then ⌊q⌋
  else if (1 : ℚ)/2 < q - (⌊q⌋ : ℚ) then ⌊q⌋ + 1
  else if ⌊q⌋ % 2 = 0 then ⌊q⌋ else ⌊q⌋ + 1

/-- `combiner_div_round`: `round(values[0] / product of the rest)`;
a zero product is a Python ZeroDivisionError. -/
def combiner_div_round : Combiner :=
  combiner_from_value_combiner (fun vs =>
    match vs with
    | [] => .error .indexError
    | a :: rest =>
        let p : Int := (rest.map (fun v => v.value)).foldl (fun x y => x * y) 1
        if p = 0 then .error .zeroDivisionError
        else .ok (pyRound ((a.value : ℚ) / (p : ℚ))))

/-- `combiner_pow`: `values[0] ** values[1]`.  `0 ** negative` is a
Python ZeroDivisionError; a negative exponent with a nonzero base
produces a float in Python and is outside the integer model. -/
def combiner_pow : Combiner :=
  combiner_from_value_combiner (fun vs =>
    match vs with
    | a :: b :: _ =>
        if 0 ≤ b.value then .ok (a.value ^ b.value.toNat)
        else if a.value = 0 then .error .zeroDivisionError
        else .error .nonIntegerResult
    | _ => .error .indexError)

/-- `combiner_mod`: `values[0] % values[1]`; Python `%` on integers is
floor-mod (`Int.fmod`), and a zero divisor is a ZeroDivisionError. -/
def combiner_mod : Combiner :=
  combiner_from_value_combiner (fun vs =>
    match vs with
    | a :: b :: _ =>
        if b.value = 0 then .error .zeroDivisionError
        else .ok (Int.fmod a.value b.value)
    | _ => .error .indexError)

/-- The comparison combiners of `BaseRoll` (`__lt__` … `__ge__`):
1 if the relation between the first two values holds, else 0. -/
def cmp_combiner (op : Int → Int → Bool) : Combiner :=
  combiner_from_value_combiner (fun vs =>
    match vs with
    | a :: b :: _ => .ok (if op a.value b.value then 1 else 0)
    | _ => .error .indexError)

/-- Value rule of `MaxRoll`: `max([v["value"] for v in args])`; an empty
list is a Python ValueError. -/
def max_value_rule (vs : List RollValue) : Except PyErrorKind Int :=
  match vs.map (fun v => v.value) with
  | [] => .error .valueError
  | x :: xs => .ok (xs.foldl max x)

/-- Value rule of `MinRoll`. -/
def min_value_rule (vs : List RollValue) : Except PyErrorKind Int :=
  match vs.map (fun v => v.value) with
  | [] => .error .valueError
  | x :: xs => .ok (xs.foldl min x)

/-- The combiner `BaseRoll.ensure_roll` builds for an integer:
`lambda *args: {"value": roll, "probability": 1, "tags": {}}`. -/
def constant_combiner (k : Int) : Combiner := fun _ => .ok ⟨k, 1, []⟩

/-- The childless `BaseRoll` that `ensure_roll` builds for an integer. -/
def constRoll (k : Int) : Roll := .node .nil (constant_combiner k)

/-- A Python value arriving at the `ensure_roll` coercion boundary. -/
inductive PyVal where
  | intV (n : Int)
  | rollV (r : Roll)
  | strV (s : String)
  | floatV (q : ℚ)
  | noneV

/-- `BaseRoll.ensure_roll`: a `BaseRoll` passes through, an int becomes
a constant roll, anything else raises `NotImplementedError` (the
docstring announces `TypeError`, but the `raise` statement uses
`NotImplementedError`). -/
def ensure_roll : PyVal → Except PyErrorKind Roll
  | .rollV r => .ok r
  | .intV n => .ok (constRoll n)
  | _ => .error .notImplementedError

/-- `BaseRoll.__add__`. -/
def rollAdd (a b : Roll) : Roll := .node (.cons a (.cons b .nil)) combiner_add

/-- `BaseRoll.__sub__`. -/
def rollSub (a b : Roll) : Roll := .node (.cons a (.cons b .nil)) combiner_sub

/-- `BaseRoll.__mul__`. -/
def rollMul (a b : Roll) : Roll := .node (.cons a (.cons b .nil)) combiner_mul

/-- `BaseRoll.__truediv__`. -/
def rollDivRound (a b : Roll) : Roll :=
  .node (.cons a (.cons b .nil)) combiner_div_round

/-- `BaseRoll.__pow__`. -/
def rollPow (a b : Roll) : Roll := .node (.cons a (.cons b .nil)) combiner_pow

/-- `BaseRoll.__mod__`. -/
def rollMod (a b : Roll) : Roll := .node (.cons a (.cons b .nil)) combiner_mod

/-- The comparison operators of `BaseRoll`. -/
def rollCmp (op : Int → Int → Bool) (a b : Roll) : Roll :=
  .node (.cons a (.cons b .nil)) (cmp_combiner op)

/-- `BaseRoll.__rmul__` of the final variant: `int * roll` coerces the
int with `ensure_roll` and builds a generic multiplication node. -/
def baseRmul (k : Int) (d : Roll) : Roll :=
  .node (.cons (constRoll k) (.cons d .nil)) combiner_mul

/-- `MaxRoll.__init__`. -/
def mkMaxRoll (rs : List Roll) : Roll :=
  .node (RollList.ofList rs) (combiner_from_value_combiner max_value_rule)

/-- `MinRoll.__init__`. -/
def mkMinRoll (rs : List Roll) : Roll :=
  .node (RollList.ofList rs) (combiner_from_value_combiner min_value_rule)

/-- Merge the kwargs tag assignment into one die face, as the `DieRoll`
constructor does with `{**side["tags"], **{tag: 1 for matching tags}}`
(the kwargs entries override, hence they come first in the assoc
list). -/
def applySideTags (tags : List (String × List Int)) (rv : RollValue) :
    RollValue :=
  ⟨rv.value, rv.probability,
   (tags.filterMap (fun p => if rv.value ∈ p.2 then some (p.1, (1 : Int)) else none))
     ++ rv.tags⟩

/-- The sides computed by `DieRoll.__init__` from an explicit face list:
probability mass not claimed by explicit faces is divided evenly among
the bare integer faces; zero bare faces is a Python ZeroDivisionError. -/
def dieSidesDist (sides : List (Int ⊕ RollValue))
    (tags : List (String × List Int)) : Except PyErrorKind Distribution :=
  let explicitSum : ℚ := (sides.filterMap (fun s =>
    match s with | .inr rv => some rv.probability | .inl _ => none)).sum
  let nBare := sides.countP (fun s =>
    match s with | .inl _ => true | _ => false)
  if nBare = 0 then .error .zeroDivisionError
  else
    .ok ((sides.map (fun s =>
      match s with
      | .inl v => (⟨v, (1 - explicitSum) / (nBare : ℚ), []⟩ : RollValue)
      | .inr rv => rv)).map (applySideTags tags))

/-- `DieRoll.__init__` with an explicit face list; `get_distribution`
of a die returns the stored sides, so the die is a leaf. -/
def mkDieRoll (sides : List (Int ⊕ RollValue))
    (tags : List (String × List Int)) : Except PyErrorKind Roll :=
  (dieSidesDist sides tags).map Roll.leaf

/-- `DieRoll.__init__` with an integer side count: faces `1 .. n`. -/
def mkDieInt (n : Nat) (tags : List (String × List Int)) :
    Except PyErrorKind Roll :=
  mkDieRoll ((List.range' 1 n).map (fun v => Sum.inl (Int.ofNat v))) tags

/-- The distribution of a plain fair die with faces `1 .. n`. -/
def dieDist (n : Nat) : Distribution :=
  (List.range' 1 n).map (fun v => ⟨(v : Int), 1 / (n : ℚ), []⟩)

/-- A plain fair die leaf. -/
def dieRoll (n : Nat) : Roll := .leaf (dieDist n)

mutual
/-- `BaseRoll.get_distribution`: a leaf returns its stored distribution,
a childless node returns the singleton `[combiner()]`, otherwise the
children distributions are computed and combined over the full
cartesian product. -/
def get_distribution : Roll → Except PyErrorKind Distribution
  | .leaf d => .ok d
  | .node .nil comb => (comb []).map (fun v => [v])
  | .node (.cons c cs) comb => do
      let ds ← childDists (.cons c cs)
      enumMerge comb ds
/-- Distributions of a list of children, computed left to right. -/
def childDists : RollList → Except PyErrorKind (List Distribution)
  | .nil => .ok []
  | .cons r rs => do
      let d ← get_distribution r
      let ds ← childDists rs
      .ok (d :: ds)
end

/-- `_combine_tag_dicts_bin` from `lib_stat/__init__.py`: keyed sum of
two tag dicts. -/
def combine_tag_dicts_bin (t1 t2 : TagSet) : TagSet :=
  (tkeys t1 ++ tkeys t2).dedup.map (fun k => (k, tget t1 k + tget t2 k))

/-- `_combine_tag_dicts` from `lib_stat/__init__.py`: left fold of the
binary keyed sum over the inputs, starting from the empty dict. -/
def combine_tag_dicts (ts : List TagSet) : TagSet :=
  ts.foldl combine_tag_dicts_bin []

/-- The default tag resolver of `MergeRoll`. -/
def mergeTagResolver (rolls : List RollValue) : TagSet :=
  combine_tag_dicts (rolls.map (fun r => r.tags))

/-- `ConstantRoll` from `lib_stat/__init__.py`: a leaf with a single
outcome of probability 1 carrying one count of each constructor tag. -/
def libstatConstant (k : Int) (tags : List String) : Roll :=
  .leaf [⟨k, 1, tags.map (fun t => (t, (1 : Int)))⟩]

/-- `OperatorRoll` from `lib_stat/__init__.py`: a binary `MergeRoll`
whose value resolver applies the operator to the first two values and
whose tag resolver is the default keyed sum.  `MergeRoll` multiplies
the input probabilities and merges duplicates exactly like
`BaseRoll.get_distribution`. -/
def operatorRoll (a b : Roll) (f : Int → Int → Int) : Roll :=
  .node (.cons a (.cons b .nil))
    (combiner_from_value_and_tag_combiner
      (fun rolls =>
        match rolls with
        | x :: y :: _ => .ok (f x.value y.value)
        | _ => .error .indexError)
      mergeTagResolver)

/-- `DieRoll.__rmul__` from `lib_stat/__init__.py`: `k * die` starts
from `ConstantRoll(0)` and chains `k` addition `OperatorRoll`s, one per
independent copy of the die. -/
def libstatRmulDie : Nat → Roll → Roll
  | 0, _ => libstatConstant 0 []
  | k + 1, d => operatorRoll (libstatRmulDie k d) d (fun a b => a + b)

/-- `roll_max` from `lib_stat/__init__.py`: rejects an empty operand
list with a ValueError, otherwise builds a `MergeRoll` whose value
resolver is the maximum. -/
def roll_max (rolls : List PyVal) : Except PyErrorKind Roll :=
  match rolls with
  | [] => .error .valueError
  | _ => do
      let rs ← rolls.mapM ensure_roll
      .ok (.node (RollList.ofList rs)
        (combiner_from_value_and_tag_combiner max_value_rule mergeTagResolver))

/-- `roll_min` from `lib_stat/__init__.py`. -/
def roll_min (rolls : List PyVal) : Except PyErrorKind Roll :=
  match rolls with
  | [] => .error .valueError
  | _ => do
      let rs ← rolls.mapM ensure_roll
      .ok (.node (RollList.ofList rs)
        (combiner_from_value_and_tag_combiner min_value_rule mergeTagResolver))

@[simp] theorem gd_leaf (d : Distribution) :
    get_distribution (.leaf d) = .ok d := rfl

@[simp] theorem gd_node_nil (comb : Combiner) :
    get_distribution (.node .nil comb) = (comb []).map (fun v => [v]) := rfl

theorem gd_node_cons (c : Roll) (cs : RollList) (comb : Combiner) :
    get_distribution (.node (.cons c cs) comb) =
      (do
        let ds ← childDists (.cons c cs)
        enumMerge comb ds) := rfl

@[simp] theorem childDists_nil : childDists .nil = .ok [] := rfl

@[simp] theorem childDists_cons (r : Roll) (rs : RollList) :
    childDists (.cons r rs) =
      (do
        let d ← get_distribution r
        let ds ← childDists rs
        .ok (d :: ds)) := rfl

/-- Unfolding of the evaluator on a binary node. -/
theorem gd_node_two (a b : Roll) (comb : Combiner) :
    get_distribution (.node (.cons a (.cons b .nil)) comb) =
      (do
        let da ← get_distribution a
        let db ← get_distribution b
        enumMerge comb [da, db]) := by
  rw [gd_node_cons]
  simp only [childDists_cons, childDists_nil]
  cases h : get_distribution a with
  | error e => rfl
  | ok da =>
      cases h2 : get_distribution b with
      | error e => rfl
      | ok db => rfl

theorem tget_eq_zero_of_not_mem {t : TagSet} {k : String}
    (h : k ∉ tkeys t) : tget t k = 0 := by
  induction t with
  | nil => rfl
  | cons p ps ih =>
      have hk : p.1 ≠ k := by
        intro hc
        exact h (by simp [tkeys, hc])
      have hrest : k ∉ tkeys ps := by
        intro hc
        exact h (by simp [tkeys] at hc ⊢; exact Or.inr hc)
      simp only [tget, List.find?]
      rw [show (p.1 == k) = false from beq_eq_false_iff_ne.mpr hk]
      exact ih hrest

theorem tagsEqual_iff {t1 t2 : TagSet} :
    tagsEqual t1 t2 = true ↔ ∀ k, tget t1 k = tget t2 k := by
  constructor
  · intro h k
    by_cases hk : k ∈ tkeys t1 ++ tkeys t2
    · have := List.all_eq_true.mp h k hk
      exact beq_iff_eq.mp this
    · rw [List.mem_append] at hk
      push_neg at hk
      rw [tget_eq_zero_of_not_mem hk.1, tget_eq_zero_of_not_mem hk.2]
  · intro h
    exact List.all_eq_true.mpr (fun k _ => beq_iff_eq.mpr (h k))

theorem tagsEqual_refl (t : TagSet) : tagsEqual t t = true :=
  tagsEqual_iff.mpr (fun _ => rfl)

theorem tagsEqual_symm {t1 t2 : TagSet} (h : tagsEqual t1 t2 = true) :
    tagsEqual t2 t1 = true :=
  tagsEqual_iff.mpr (fun k => (tagsEqual_iff.mp h k).symm)

theorem tagsEqual_trans {t1 t2 t3 : TagSet} (h1 : tagsEqual t1 t2 = true)
    (h2 : tagsEqual t2 t3 = true) : tagsEqual t1 t3 = true :=
  tagsEqual_iff.mpr (fun k => (tagsEqual_iff.mp h1 k).trans (tagsEqual_iff.mp h2 k))

theorem tagsEqual_congr_left {s1 s2 t : TagSet}
    (h : ∀ k, tget s1 k = tget s2 k) : tagsEqual s1 t = tagsEqual s2 t := by
  by_cases h1 : tagsEqual s1 t = true
  · rw [h1]
    exact (tagsEqual_iff.mpr (fun k => (h k).symm.trans (tagsEqual_iff.mp h1 k))).symm
  · rcases hb : tagsEqual s2 t with _ | _
    · simpa using h1
    · exact absurd (tagsEqual_iff.mpr
        (fun k => (h k).trans (tagsEqual_iff.mp hb k))) h1

/-- Lookup in a list built by mapping a value function over a key list:
the first occurrence of the key decides, so duplicates are harmless. -/
theorem tget_keyed_map (ks : List String) (g : String → Int) (k : String) :
    tget (ks.map (fun x => (x, g x))) k = if k ∈ ks then g k else 0 := by
  induction ks with
  | nil => rfl
  | cons x xs ih =>
      by_cases hx : x = k
      · subst hx
        simp [tget, List.find?]
      · have hbeq : (x == k) = false := beq_eq_false_iff_ne.mpr hx
        have hstep : tget ((x :: xs).map (fun y => (y, g y))) k
            = tget (xs.map (fun y => (y, g y))) k := by
          simp [tget, List.find?, hbeq]
        rw [hstep, ih]
        simp [List.mem_cons, Ne.symm hx]

theorem mem_foldl_append {α : Type} (ls : List (List α)) (acc : List α) (k : α) :
    k ∈ ls.foldl (fun a b => a ++ b) acc ↔ k ∈ acc ∨ ∃ l ∈ ls, k ∈ l := by
  induction ls generalizing acc with
  | nil => simp
  | cons l ls ih =>
      rw [List.foldl_cons, ih]
      simp [List.mem_append, or_assoc]

theorem tget_additive (ts : List TagSet) (k : String) :
    tget (tag_combiner_additive ts) k = (ts.map (fun t => tget t k)).sum := by
  unfold tag_combiner_additive
  rw [tget_keyed_map]
  by_cases hk : k ∈ ((ts.map tkeys).foldl (fun a b => a ++ b) []).dedup
  · rw [if_pos hk]
  · rw [if_neg hk]
    rw [List.mem_dedup, mem_foldl_append] at hk
    push_neg at hk
    have : ∀ t ∈ ts, tget t k = 0 := by
      intro t ht
      exact tget_eq_zero_of_not_mem (hk.2 (tkeys t) (List.mem_map_of_mem tkeys ht))
    rw [List.sum_eq_zero]
    intro x hx
    rw [List.mem_map] at hx
    obtain ⟨t, ht, rfl⟩ := hx
    exact this t ht

theorem tget_combine_bin (t1 t2 : TagSet) (k : String) :
    tget (combine_tag_dicts_bin t1 t2) k = tget t1 k + tget t2 k := by
  unfold combine_tag_dicts_bin
  rw [tget_keyed_map]
  by_cases hk : k ∈ (tkeys t1 ++ tkeys t2).dedup
  · rw [if_pos hk]
  · rw [if_neg hk]
    rw [List.mem_dedup, List.mem_append] at hk
    push_neg at hk
    rw [tget_eq_zero_of_not_mem hk.1, tget_eq_zero_of_not_mem hk.2]
    norm_num

theorem tget_combine_tag_dicts (ts : List TagSet) (k : String) :
    tget (combine_tag_dicts ts) k = (ts.map (fun t => tget t k)).sum := by
  unfold combine_tag_dicts
  have general : ∀ (acc : TagSet), tget (ts.foldl combine_tag_dicts_bin acc) k =
      tget acc k + (ts.map (fun t => tget t k)).sum := by
    induction ts with
    | nil => intro acc; simp
    | cons t ts ih =>
        intro acc
        rw [List.foldl_cons, ih, tget_combine_bin]
        simp [add_assoc]
  rw [general []]
  simp [tget]

/-- Probability mass that a distribution assigns to the key class
`(v, t)` (value `v`, tags key-wise equal to `t`). -/
def massOf (d : Distribution) (v : Int) (t : TagSet) : ℚ :=
  (d.map (fun o =>
    if o.value = v ∧ tagsEqual o.tags t = true then o.probability else 0)).sum

/-- Whether a distribution holds an outcome of the key class `(v, t)`. -/
def hasKey (d : Distribution) (v : Int) (t : TagSet) : Bool :=
  d.any (fun o => o.value == v && tagsEqual o.tags t)

/-- Two outcomes contradict the normalization invariant iff they have
both equal value and key-wise equal tags. -/
def distinctKeys (a b : RollValue) : Prop :=
  ¬ (a.value = b.value ∧ tagsEqual a.tags b.tags = true)

/-- The normalization invariant of a distribution: no two outcomes with
equal value and equal tag set. -/
def UniqueKeys (d : Distribution) : Prop := d.Pairwise distinctKeys

instance : DecidablePred (fun d => UniqueKeys d) := by
  intro d
  unfold UniqueKeys distinctKeys
  infer_instance

theorem probSum_addOutcome (d : Distribution) (o : RollValue) :
    probSum (addOutcome d o) = probSum d + o.probability := by
  induction d with
  | nil => simp [addOutcome, probSum]
  | cons d0 ds ih =>
      by_cases h : d0.value = o.value ∧ tagsEqual d0.tags o.tags = true
      · simp only [addOutcome, if_pos h, probSum, List.map_cons, List.sum_cons]
        ring
      · simp only [addOutcome, if_neg h, probSum, List.map_cons, List.sum_cons] at *
        rw [ih]
        ring

theorem massOf_addOutcome (d : Distribution) (o : RollValue) (v : Int)
    (t : TagSet) : massOf (addOutcome d o) v t =
      massOf d v t +
        (if o.value = v ∧ tagsEqual o.tags t = true then o.probability else 0) := by
  induction d with
  | nil => simp [addOutcome, massOf]
  | cons d0 ds ih =>
      by_cases h : d0.value = o.value ∧ tagsEqual d0.tags o.tags = true
      · simp only [addOutcome, if_pos h, massOf, List.map_cons, List.sum_cons]
        by_cases hk : d0.value = v ∧ tagsEqual d0.tags t = true
        · have hok : o.value = v ∧ tagsEqual o.tags t = true :=
            ⟨h.1 ▸ hk.1, tagsEqual_trans (tagsEqual_symm h.2) hk.2⟩
          rw [if_pos hk, if_pos hk, if_pos hok]
          ring
        · have hok : ¬ (o.value = v ∧ tagsEqual o.tags t = true) := by
            intro hc
            exact hk ⟨h.1.trans hc.1, tagsEqual_trans h.2 hc.2⟩
          rw [if_neg hk, if_neg hk, if_neg hok]
          ring
      · simp only [addOutcome, if_neg h, massOf, List.map_cons, List.sum_cons] at *
        rw [ih]
        ring

theorem hasKey_addOutcome (d : Distribution) (o : RollValue) (v : Int)
    (t : TagSet) : hasKey (addOutcome d o) v t =
      (hasKey d v t || (o.value == v && tagsEqual o.tags t)) := by
  induction d with
  | nil => simp [addOutcome, hasKey]
  | cons d0 ds ih =>
      by_cases h : d0.value = o.value ∧ tagsEqual d0.tags o.tags = true
      · simp only [addOutcome, if_pos h, hasKey, List.any_cons]
        by_cases hk : (d0.value == v && tagsEqual d0.tags t) = true
        · simp [hk]
        · have hok : (o.value == v && tagsEqual o.tags t) = false := by
            rw [Bool.and_eq_false_iff]
            rcases Bool.and_eq_false_iff.mp (Bool.eq_false_iff.mpr hk) with hv | ht
            · exact Or.inl (by
                rw [beq_eq_false_iff_ne] at hv ⊢
                exact fun hc => hv (h.1.trans hc))
            · exact Or.inr (by
                rw [Bool.eq_false_iff] at ht ⊢
                exact fun hc => ht (tagsEqual_trans h.2 hc))
          rw [Bool.eq_false_iff.mpr hk] at *
          simp [hok]
      · simp only [addOutcome, if_neg h, hasKey, List.any_cons] at *
        rw [ih]
        simp [Bool.or_assoc]

/-- Every member of `addOutcome d o` has the key of a member of `d` or
the key of `o`. -/
theorem mem_addOutcome_key {d : Distribution} {o x : RollValue}
    (hx : x ∈ addOutcome d o) :
    ∃ y, (y ∈ d ∨ y = o) ∧ x.value = y.value ∧ x.tags = y.tags := by
  induction d with
  | nil =>
      simp [addOutcome] at hx
      exact ⟨o, Or.inr rfl, by rw [hx], by rw [hx]⟩
  | cons d0 ds ih =>
      by_cases h : d0.value = o.value ∧ tagsEqual d0.tags o.tags = true
      · rw [addOutcome, if_pos h] at hx
        rcases List.mem_cons.mp hx with hx0 | hxs
        · exact ⟨d0, Or.inl (List.mem_cons_self d0 ds), by rw [hx0], by rw [hx0]⟩
        · exact ⟨x, Or.inl (List.mem_cons_of_mem d0 hxs), rfl, rfl⟩
      · rw [addOutcome, if_neg h] at hx
        rcases List.mem_cons.mp hx with hx0 | hxs
        · exact ⟨d0, Or.inl (List.mem_cons_self d0 ds), by rw [hx0], by rw [hx0]⟩
        · obtain ⟨y, hy, hv, ht⟩ := ih hxs
          rcases hy with hy | hy
          · exact ⟨y, Or.inl (List.mem_cons_of_mem d0 hy), hv, ht⟩
          · exact ⟨y, Or.inr hy, hv, ht⟩

theorem uniqueKeys_addOutcome {d : Distribution} (o : RollValue)
    (hu : UniqueKeys d) : UniqueKeys (addOutcome d o) := by
  induction d with
  | nil => simp [addOutcome, UniqueKeys]
  | cons d0 ds ih =>
      rw [UniqueKeys, List.pairwise_cons] at hu
      by_cases h : d0.value = o.value ∧ tagsEqual d0.tags o.tags = true
      · rw [addOutcome, if_pos h, UniqueKeys, List.pairwise_cons]
        exact ⟨fun x hx => hu.1 x hx, hu.2⟩
      · rw [addOutcome, if_neg h, UniqueKeys, List.pairwise_cons]
        constructor
        · intro x hx
          obtain ⟨y, hy, hv, ht⟩ := mem_addOutcome_key hx
          have hdy : distinctKeys d0 y := by
            rcases hy with hy | hy
            · exact hu.1 y hy
            · rw [hy]
              exact h
          intro hc
          exact hdy ⟨hc.1.trans hv, ht ▸ hc.2⟩
        · exact ih hu.2

theorem massOf_eq_zero {d : Distribution} {v : Int} {t : TagSet}
    (h : ∀ x ∈ d, ¬ (x.value = v ∧ tagsEqual x.tags t = true)) :
    massOf d v t = 0 := by
  unfold massOf
  rw [List.sum_eq_zero]
  intro q hq
  rw [List.mem_map] at hq
  obtain ⟨x, hx, rfl⟩ := hq
  rw [if_neg (h x hx)]

/-- In a distribution with unique keys the mass at the key of a member
is exactly that member's probability. -/
theorem massOf_of_mem_unique {d : Distribution} {o : RollValue}
    (hu : UniqueKeys d) (ho : o ∈ d) :
    massOf d o.value o.tags = o.probability := by
  induction d with
  | nil => cases ho
  | cons d0 ds ih =>
      rw [UniqueKeys, List.pairwise_cons] at hu
      rcases List.mem_cons.mp ho with ho0 | hos
      · subst ho0
        unfold massOf
        rw [List.map_cons, List.sum_cons, if_pos ⟨rfl, tagsEqual_refl _⟩]
        have : massOf ds o.value o.tags = 0 := by
          apply massOf_eq_zero
          intro x hx hc
          exact hu.1 x hx ⟨hc.1.symm, tagsEqual_symm hc.2⟩
        unfold massOf at this
        rw [this]
        ring
      · unfold massOf
        rw [List.map_cons, List.sum_cons, if_neg (hu.1 o hos)]
        have := ih hu.2 hos
        unfold massOf at this
        rw [this]
        ring

/-- The probability a standard combiner assigns to a tuple: the product
of the input probabilities, folded exactly as the source folds it. -/
def tupleProb (t : List RollValue) : ℚ :=
  (t.map (fun r => r.probability)).foldl (fun a b => a * b) 1

theorem foldl_mul_eq (l : List ℚ) (a : ℚ) :
    l.foldl (fun x y => x * y) a = a * l.prod := by
  induction l generalizing a with
  | nil => simp
  | cons x xs ih => rw [List.foldl_cons, ih, List.prod_cons]; ring

theorem tupleProb_cons (x : RollValue) (t : List RollValue) :
    tupleProb (x :: t) = x.probability * tupleProb t := by
  unfold tupleProb
  rw [List.map_cons, List.foldl_cons, foldl_mul_eq, foldl_mul_eq]
  ring

/-- A combiner whose output probability is always the product of its
input probabilities. -/
def ProbMul (comb : Combiner) : Prop :=
  ∀ t v, comb t = .ok v → v.probability = tupleProb t

theorem probMul_factory (vr : List RollValue → Except PyErrorKind Int)
    (tc : List RollValue → TagSet) :
    ProbMul (combiner_from_value_and_tag_combiner vr tc) := by
  intro t v h
  unfold combiner_from_value_and_tag_combiner at h
  cases hv : vr t with
  | error e => rw [hv] at h; exact absurd h (by simp [Bind.bind, Except.bind])
  | ok val =>
      rw [hv] at h
      have : v = ⟨val, (t.map (fun r => r.probability)).foldl (fun a b => a * b) 1,
          tc t⟩ := by
        have := h
        simp [Bind.bind, Except.bind] at this
        exact this.symm
      rw [this]
      rfl

/-- One enumeration step of `BaseRoll.get_distribution`. -/
def mergeStep (comb : Combiner) (acc : Distribution) (t : List RollValue) :
    Except PyErrorKind Distribution := do
  let v ← comb t
  pure (addOutcome acc v)

theorem enumMerge_eq_foldlM (comb : Combiner) (ds : List Distribution) :
    enumMerge comb ds = (cartesian ds).foldlM (mergeStep comb) [] := rfl

theorem foldlM_probSum {comb : Combiner} (hP : ProbMul comb)
    (l : List (List RollValue)) :
    ∀ (acc d : Distribution), l.foldlM (mergeStep comb) acc = .ok d →
      probSum d = probSum acc + (l.map tupleProb).sum := by
  induction l with
  | nil =>
      intro acc d h
      simp only [List.foldlM_nil] at h
      cases h
      simp
  | cons t ts ih =>
      intro acc d h
      rw [List.foldlM_cons] at h
      cases hc : comb t with
      | error e =>
          rw [show mergeStep comb acc t = .error e by
            simp [mergeStep, hc, Bind.bind, Except.bind]] at h
          exact absurd h (by simp [Bind.bind, Except.bind])
      | ok v =>
          rw [show mergeStep comb acc t = .ok (addOutcome acc v) by
            simp [mergeStep, hc, Bind.bind, Except.bind, pure, Except.pure]] at h
          have h2 : ts.foldlM (mergeStep comb) (addOutcome acc v) = .ok d := by
            simpa [Bind.bind, Except.bind] using h
          rw [ih _ _ h2, probSum_addOutcome, hP t v hc]
          simp [List.map_cons, List.sum_cons]
          ring

theorem foldlM_uniqueKeys {comb : Combiner} (l : List (List RollValue)) :
    ∀ (acc d : Distribution), UniqueKeys acc →
      l.foldlM (mergeStep comb) acc = .ok d → UniqueKeys d := by
  induction l with
  | nil =>
      intro acc d hu h
      simp only [List.foldlM_nil] at h
      cases h
      exact hu
  | cons t ts ih =>
      intro acc d hu h
      rw [List.foldlM_cons] at h
      cases hc : comb t with
      | error e =>
          rw [show mergeStep comb acc t = .error e by
            simp [mergeStep, hc, Bind.bind, Except.bind]] at h
          exact absurd h (by simp [Bind.bind, Except.bind])
      | ok v =>
          rw [show mergeStep comb acc t = .ok (addOutcome acc v) by
            simp [mergeStep, hc, Bind.bind, Except.bind, pure, Except.pure]] at h
          have h2 : ts.foldlM (mergeStep comb) (addOutcome acc v) = .ok d := by
            simpa [Bind.bind, Except.bind] using h
          exact ih _ _ (uniqueKeys_addOutcome v hu) h2

/-- Contribution of one tuple to the mass of the key class `(v, t)`. -/
def combContrib (comb : Combiner) (v : Int) (t : TagSet)
    (tu : List RollValue) : ℚ :=
  match comb tu with
  | .ok o => if o.value = v ∧ tagsEqual o.tags t = true then o.probability else 0
  | .error _ => 0

/-- Whether one tuple produces the key class `(v, t)`. -/
def combHasKey (comb : Combiner) (v : Int) (t : TagSet)
    (tu : List RollValue) : Bool :=
  match comb tu with
  | .ok o => o.value == v && tagsEqual o.tags t
  | .error _ => false

theorem foldlM_massOf {comb : Combiner} (v : Int) (t : TagSet)
    (l : List (List RollValue)) :
    ∀ (acc d : Distribution), l.foldlM (mergeStep comb) acc = .ok d →
      massOf d v t = massOf acc v t + (l.map (combContrib comb v t)).sum := by
  induction l with
  | nil =>
      intro acc d h
      simp only [List.foldlM_nil] at h
      cases h
      simp
  | cons tu ts ih =>
      intro acc d h
      rw [List.foldlM_cons] at h
      cases hc : comb tu with
      | error e =>
          rw [show mergeStep comb acc tu = .error e by
            simp [mergeStep, hc, Bind.bind, Except.bind]] at h
          exact absurd h (by simp [Bind.bind, Except.bind])
      | ok o =>
          rw [show mergeStep comb acc tu = .ok (addOutcome acc o) by
            simp [mergeStep, hc, Bind.bind, Except.bind, pure, Except.pure]] at h
          have h2 : ts.foldlM (mergeStep comb) (addOutcome acc o) = .ok d := by
            simpa [Bind.bind, Except.bind] using h
          rw [ih _ _ h2, massOf_addOutcome]
          simp only [List.map_cons, List.sum_cons, combContrib, hc]
          ring

theorem foldlM_hasKey {comb : Combiner} (v : Int) (t : TagSet)
    (l : List (List RollValue)) :
    ∀ (acc d : Distribution), l.foldlM (mergeStep comb) acc = .ok d →
      hasKey d v t = (hasKey acc v t || l.any (combHasKey comb v t)) := by
  induction l with
  | nil =>
      intro acc d h
      simp only [List.foldlM_nil] at h
      cases h
      simp
  | cons tu ts ih =>
      intro acc d h
      rw [List.foldlM_cons] at h
      cases hc : comb tu with
      | error e =>
          rw [show mergeStep comb acc tu = .error e by
            simp [mergeStep, hc, Bind.bind, Except.bind]] at h
          exact absurd h (by simp [Bind.bind, Except.bind])
      | ok o =>
          rw [show mergeStep comb acc tu = .ok (addOutcome acc o) by
            simp [mergeStep, hc, Bind.bind, Except.bind, pure, Except.pure]] at h
          have h2 : ts.foldlM (mergeStep comb) (addOutcome acc o) = .ok d := by
            simpa [Bind.bind, Except.bind] using h
          rw [ih _ _ h2, hasKey_addOutcome]
          simp only [List.any_cons, combHasKey, hc]
          rw [Bool.or_assoc]

theorem foldlM_error {comb : Combiner} {E : PyErrorKind}
    (l : List (List RollValue)) :
    ∀ (acc : Distribution), (∃ t0 ∈ l, comb t0 = .error E) →
      (∀ t ∈ l, (∃ v, comb t = .ok v) ∨ comb t = .error E) →
      l.foldlM (mergeStep comb) acc = .error E := by
  induction l with
  | nil =>
      intro acc h _
      obtain ⟨t0, ht0, _⟩ := h
      cases ht0
  | cons tu ts ih =>
      intro acc hex hall
      rw [List.foldlM_cons]
      rcases hall tu (List.mem_cons_self tu ts) with ⟨v, hv⟩ | he
      · rw [show mergeStep comb acc tu = .ok (addOutcome acc v) by
          simp [mergeStep, hv, Bind.bind, Except.bind, pure, Except.pure]]
        have hex2 : ∃ t0 ∈ ts, comb t0 = .error E := by
          obtain ⟨t0, ht0, he0⟩ := hex
          rcases List.mem_cons.mp ht0 with rfl | hts
          · rw [hv] at he0; cases he0
          · exact ⟨t0, hts, he0⟩
        show List.foldlM (mergeStep comb) (addOutcome acc v) ts = .error E
        exact ih (addOutcome acc v) hex2
          (fun t ht => hall t (List.mem_cons_of_mem tu ht))
      · rw [show mergeStep comb acc tu = .error E by
          simp [mergeStep, he, Bind.bind, Except.bind]]
        rfl

theorem cartesian_one (d : Distribution) :
    cartesian [d] = d.map (fun y => [y]) := by
  show d.flatMap (fun x => (cartesian []).map (fun t => x :: t)) = _
  induction d with
  | nil => rfl
  | cons x xs ih => simp_all [List.flatMap_cons, cartesian]

theorem cartesian_two (da db : Distribution) :
    cartesian [da, db] = da.flatMap (fun x => db.map (fun y => [x, y])) := by
  show da.flatMap (fun x => (cartesian [db]).map (fun t => x :: t)) = _
  rw [cartesian_one]
  congr 1
  funext x
  rw [List.map_map]
  rfl

theorem mem_cartesian_two {da db : Distribution} {x y : RollValue}
    (hx : x ∈ da) (hy : y ∈ db) : [x, y] ∈ cartesian [da, db] := by
  rw [cartesian_two, List.mem_flatMap]
  exact ⟨x, hx, List.mem_map_of_mem _ hy⟩

theorem cartesian_two_shape {da db : Distribution} {t : List RollValue}
    (ht : t ∈ cartesian [da, db]) : ∃ x ∈ da, ∃ y ∈ db, t = [x, y] := by
  rw [cartesian_two, List.mem_flatMap] at ht
  obtain ⟨x, hx, hmem⟩ := ht
  rw [List.mem_map] at hmem
  obtain ⟨y, hy, rfl⟩ := hmem
  exact ⟨x, hx, y, hy, rfl⟩

theorem sum_map_flatMap {α β : Type} (l : List α) (g : α → List β)
    (f : β → ℚ) : (((l.flatMap g).map f)).sum =
      (l.map (fun x => ((g x).map f).sum)).sum := by
  induction l with
  | nil => rfl
  | cons x xs ih =>
      rw [List.flatMap_cons, List.map_append, List.sum_append, ih,
        List.map_cons, List.sum_cons]

theorem sum_map_mul_const {α : Type} (l : List α) (f : α → ℚ) (c : ℚ) :
    (l.map (fun t => c * f t)).sum = c * (l.map f).sum := by
  induction l with
  | nil => simp
  | cons x xs ih => simp [List.map_cons, List.sum_cons, ih]; ring

theorem sum_map_prob_mul (d : Distribution) (c : ℚ) :
    (d.map (fun x => x.probability * c)).sum = probSum d * c := by
  induction d with
  | nil => simp [probSum]
  | cons x xs ih =>
      simp only [probSum, List.map_cons, List.sum_cons] at *
      rw [ih]
      ring

theorem sum_tupleProb_cartesian (ds : List Distribution) :
    ((cartesian ds).map tupleProb).sum = (ds.map probSum).prod := by
  induction ds with
  | nil => simp [cartesian, tupleProb]
  | cons d ds ih =>
      show ((d.flatMap fun x => (cartesian ds).map (fun t => x :: t)).map
        tupleProb).sum = _
      rw [sum_map_flatMap]
      have heq : (d.map fun x =>
          (((cartesian ds).map (fun t => x :: t)).map tupleProb).sum)
            = d.map (fun x =>
              x.probability * ((cartesian ds).map tupleProb).sum) := by
        apply List.map_congr_left
        intro x _
        rw [List.map_map]
        have : (tupleProb ∘ fun t => x :: t)
            = fun t => x.probability * tupleProb t := by
          funext t
          exact tupleProb_cons x t
        rw [this]
        exact sum_map_mul_const (cartesian ds) tupleProb x.probability
      rw [heq, sum_map_prob_mul, List.map_cons, List.prod_cons, ih]

/-- Structural induction for `RollList` alone (the generated mutual
recursor is inconvenient for the `induction` tactic). -/
def RollList.inductionOn {motive : RollList → Prop} (rl : RollList)
    (hnil : motive .nil)
    (hcons : ∀ r rs, motive rs → motive (.cons r rs)) : motive rl :=
  match rl with
  | .nil => hnil
  | .cons r rs => hcons r rs (RollList.inductionOn rs hnil hcons)

/-- If every child of the list evaluated successfully and every
successful child distribution satisfies `P`, then every computed
distribution in the list satisfies `P`. -/
theorem childDists_forall (P : Distribution → Prop) (rl : RollList) :
    ∀ (ds : List Distribution), childDists rl = .ok ds →
      (∀ c ∈ rl.toList, ∀ dc, get_distribution c = .ok dc → P dc) →
      ∀ dc ∈ ds, P dc := by
  induction rl using RollList.inductionOn with
  | hnil =>
      intro ds h _
      simp only [childDists_nil] at h
      cases h
      intro dc hdc
      cases hdc
  | hcons r rs ih =>
      intro ds h hP
      rw [childDists_cons] at h
      cases hr : get_distribution r with
      | error e => rw [hr] at h; exact absurd h (by simp [Bind.bind, Except.bind])
      | ok d0 =>
          rw [hr] at h
          cases hrs : childDists rs with
          | error e =>
              rw [hrs] at h
              exact absurd h (by simp [Bind.bind, Except.bind])
          | ok ds' =>
              rw [hrs] at h
              have : ds = d0 :: ds' := by
                simpa [Bind.bind, Except.bind] using h.symm
              subst this
              intro dc hdc
              rcases List.mem_cons.mp hdc with rfl | hm
              · exact hP r (List.mem_cons_self r rs.toList) dc hr
              · exact ih ds' hrs
                  (fun c hc => hP c (List.mem_cons_of_mem r hc)) dc hm

/-- A roll tree whose leaves all sum to 1, whose childless nodes emit
probability 1 and whose combiners all multiply probabilities. -/
inductive Conserving : Roll → Prop where
  | leaf {d : Distribution} : probSum d = 1 → Conserving (.leaf d)
  | node0 {comb : Combiner} :
      (∀ v, comb [] = .ok v → v.probability = 1) →
      Conserving (.node .nil comb)
  | node {cs : RollList} {comb : Combiner} :
      (∀ c ∈ cs.toList, Conserving c) → ProbMul comb →
      Conserving (.node cs comb)

theorem conserving_probSum {r : Roll} (h : Conserving r) :
    ∀ d, get_distribution r = .ok d → probSum d = 1 := by
  induction h with
  | leaf hd =>
      intro d h
      rw [gd_leaf] at h
      cases h
      assumption
  | @node0 comb hv =>
      intro d h
      rw [gd_node_nil] at h
      cases hc : comb [] with
      | error e => rw [hc] at h; exact absurd h (by simp [Except.map])
      | ok v =>
          rw [hc] at h
          have : d = [v] := by simpa [Except.map] using h.symm
          subst this
          simp [probSum, hv v hc]
  | @node cs comb hcs hP ih =>
      intro d h
      cases cs with
      | nil =>
          rw [gd_node_nil] at h
          cases hc : comb [] with
          | error e => rw [hc] at h; exact absurd h (by simp [Except.map])
          | ok v =>
              rw [hc] at h
              have : d = [v] := by simpa [Except.map] using h.symm
              subst this
              have : v.probability = tupleProb [] := hP [] v hc
              simp [probSum, this, tupleProb]
      | cons c0 cs0 =>
          rw [gd_node_cons] at h
          cases hds : childDists (RollList.cons c0 cs0) with
          | error e => rw [hds] at h; exact absurd h (by simp [Bind.bind, Except.bind])
          | ok ds =>
              rw [hds] at h
              have hmerge : enumMerge comb ds = .ok d := by
                simpa [Bind.bind, Except.bind] using h
              rw [enumMerge_eq_foldlM] at hmerge
              have hsum := foldlM_probSum hP (cartesian ds) [] d hmerge
              rw [sum_tupleProb_cartesian] at hsum
              have hall : ∀ dc ∈ ds, probSum dc = 1 :=
                childDists_forall (fun dc => probSum dc = 1)
                  (RollList.cons c0 cs0) ds hds
                  (fun c hc dc hdc => ih c hc dc hdc)
              have : (ds.map probSum).prod = 1 := by
                rw [List.prod_eq_one]
                intro x hx
                rw [List.mem_map] at hx
                obtain ⟨dc, hdc, rfl⟩ := hx
                exact hall dc hdc
              rw [hsum, this]
              simp [probSum]

theorem probSum_map_applySideTags (tags : List (String × List Int))
    (d : Distribution) : probSum (d.map (applySideTags tags)) = probSum d := by
  unfold probSum
  rw [List.map_map]
  rfl

/-- One face of the converted side list of `DieRoll.__init__`. -/
def convertSide (convP : ℚ) (s : Int ⊕ RollValue) : RollValue :=
  match s with
  | .inl v => ⟨v, convP, []⟩
  | .inr rv => rv

theorem probSum_map_convertSide (sides : List (Int ⊕ RollValue)) (convP : ℚ) :
    probSum (sides.map (convertSide convP)) =
      ((sides.countP (fun s => match s with | .inl _ => true | _ => false) : ℚ))
          * convP +
        (sides.filterMap (fun s =>
          match s with | .inr rv => some rv.probability | .inl _ => none)).sum := by
  induction sides with
  | nil => simp [probSum]
  | cons s rest ih =>
      cases s with
      | inl v =>
          simp only [probSum, List.map_cons, List.sum_cons, convertSide,
            List.countP_cons, List.filterMap_cons] at *
          rw [ih]
          push_cast
          ring
      | inr rv =>
          simp only [probSum, List.map_cons, List.sum_cons, convertSide,
            List.countP_cons, List.filterMap_cons] at *
          rw [ih]
          push_cast
          ring

theorem dieSidesDist_probSum {sides : List (Int ⊕ RollValue)}
    {tags : List (String × List Int)} {d : Distribution}
    (h : dieSidesDist sides tags = .ok d) : probSum d = 1 := by
  unfold dieSidesDist at h
  set nBare := sides.countP (fun s => match s with | .inl _ => true | _ => false)
    with hn
  by_cases h0 : nBare = 0
  · rw [if_pos h0] at h
    cases h
  · rw [if_neg h0] at h
    set eS : ℚ := (sides.filterMap (fun s =>
      match s with | .inr rv => some rv.probability | .inl _ => none)).sum with he
    have hd : d = (sides.map (convertSide ((1 - eS) / (nBare : ℚ)))).map
        (applySideTags tags) := by
      have := h
      simp only [Except.ok.injEq] at this
      rw [← this]
      rfl
    rw [hd, probSum_map_applySideTags, probSum_map_convertSide]
    have hq : (nBare : ℚ) ≠ 0 := by
      exact_mod_cast h0
    field_simp

/-- The roll trees reachable from the public constructors: dice,
integer constants coerced by `ensure_roll`, the arithmetic and
comparison operators, and max/min. -/
inductive Constructed : Roll → Prop where
  | die {sides : List (Int ⊕ RollValue)} {tags : List (String × List Int)}
      {r : Roll} : mkDieRoll sides tags = .ok r → Constructed r
  | intConst (k : Int) : Constructed (constRoll k)
  | add {a b : Roll} : Constructed a → Constructed b → Constructed (rollAdd a b)
  | sub {a b : Roll} : Constructed a → Constructed b → Constructed (rollSub a b)
  | mul {a b : Roll} : Constructed a → Constructed b → Constructed (rollMul a b)
  | divR {a b : Roll} : Constructed a → Constructed b →
      Constructed (rollDivRound a b)
  | powR {a b : Roll} : Constructed a → Constructed b → Constructed (rollPow a b)
  | modR {a b : Roll} : Constructed a → Constructed b → Constructed (rollMod a b)
  | cmp (op : Int → Int → Bool) {a b : Roll} : Constructed a → Constructed b →
      Constructed (rollCmp op a b)
  | maxR {rs : List Roll} : (∀ x ∈ rs, Constructed x) →
      Constructed (mkMaxRoll rs)
  | minR {rs : List Roll} : (∀ x ∈ rs, Constructed x) →
      Constructed (mkMinRoll rs)

theorem conserving_two_node (comb : Combiner) {a b : Roll}
    (ha : Conserving a) (hb : Conserving b) (hP : ProbMul comb) :
    Conserving (.node (.cons a (.cons b .nil)) comb) := by
  apply Conserving.node _ hP
  intro c hc
  simp only [RollList.toList, List.mem_cons, List.not_mem_nil, or_false] at hc
  rcases hc with rfl | rfl
  · exact ha
  · exact hb

theorem constructed_conserving {r : Roll} (h : Constructed r) : Conserving r := by
  induction h with
  | die hdie =>
      unfold mkDieRoll at hdie
      cases hd : dieSidesDist _ _ with
      | error e =>
          rename_i sides tags r
          rw [hd] at hdie
          exact absurd hdie (by simp [Except.map])
      | ok dist =>
          rename_i sides tags r
          rw [hd] at hdie
          have : r = Roll.leaf dist := by
            simpa [Except.map] using hdie.symm
          subst this
          exact Conserving.leaf (dieSidesDist_probSum hd)
  | intConst k =>
      apply Conserving.node0
      intro v hv
      cases hv
      rfl
  | add _ _ iha ihb => exact conserving_two_node _ iha ihb (probMul_factory _ _)
  | sub _ _ iha ihb => exact conserving_two_node _ iha ihb (probMul_factory _ _)
  | mul _ _ iha ihb => exact conserving_two_node _ iha ihb (probMul_factory _ _)
  | divR _ _ iha ihb => exact conserving_two_node _ iha ihb (probMul_factory _ _)
  | powR _ _ iha ihb => exact conserving_two_node _ iha ihb (probMul_factory _ _)
  | modR _ _ iha ihb => exact conserving_two_node _ iha ihb (probMul_factory _ _)
  | cmp op _ _ iha ihb =>
      exact conserving_two_node _ iha ihb (probMul_factory _ _)
  | maxR _ ih =>
      apply Conserving.node
      · intro c hc
        rw [RollList.toList_ofList] at hc
        exact ih c hc
      · exact probMul_factory _ _
  | minR _ ih =>
      apply Conserving.node
      · intro c hc
        rw [RollList.toList_ofList] at hc
        exact ih c hc
      · exact probMul_factory _ _

/-- C1: probability conservation.  For every roll tree built from the
public constructors whose distribution computation succeeds, the
probabilities of the returned distribution sum exactly to 1 (the float
tolerance of the specification is absorbed by the exact rational
model). -/
theorem C1_probability_conservation {r : Roll} (h : Constructed r)
    {d : Distribution} (hd : get_distribution r = .ok d) : probSum d = 1 :=
  conserving_probSum (constructed_conserving h) d hd

/-- C1 witness: die(2) + 3, a nested constructor tree with a computed
distribution summing to 1. -/
theorem C1_witness :
    probSum [⟨4, (1 : ℚ)/2, []⟩, ⟨5, (1 : ℚ)/2, []⟩] = 1 :=
  C1_probability_conservation
    (Constructed.add
      (@Constructed.die [Sum.inl 1, Sum.inl 2] [] (dieRoll 2)
        (by with_unfolding_all rfl))
      (Constructed.intConst 3))
    (by with_unfolding_all decide)

/-- The distribution of the difference of two independent d6 rolls, in
the enumeration order of the evaluator: 11 outcomes, values -5..5,
triangular probabilities. -/
def twoDieDiffDist : Distribution :=
  [⟨0, 1/6, []⟩, ⟨-1, 5/36, []⟩, ⟨-2, 1/9, []⟩, ⟨-3, 1/12, []⟩,
   ⟨-4, 1/18, []⟩, ⟨-5, 1/36, []⟩, ⟨1, 5/36, []⟩, ⟨2, 1/9, []⟩,
   ⟨3, 1/12, []⟩, ⟨4, 1/18, []⟩, ⟨5, 1/36, []⟩]

/-- The distribution of the sum of three independent d6 rolls: values
3..18 with the convolution probabilities over 216 combinations. -/
def threeDieSumDist : Distribution :=
  [⟨3, 1/216, []⟩, ⟨4, 1/72, []⟩, ⟨5, 1/36, []⟩, ⟨6, 5/108, []⟩,
   ⟨7, 5/72, []⟩, ⟨8, 7/72, []⟩, ⟨9, 25/216, []⟩, ⟨10, 1/8, []⟩,
   ⟨11, 1/8, []⟩, ⟨12, 25/216, []⟩, ⟨13, 7/72, []⟩, ⟨14, 5/72, []⟩,
   ⟨15, 5/108, []⟩, ⟨16, 1/36, []⟩, ⟨17, 1/72, []⟩, ⟨18, 1/216, []⟩]

/-- The distribution `BaseRoll.__rmul__` actually produces for
`3 * die(6)`: a generic value multiplication, values 3,6,…,18. -/
def threeTimesDieScaled : Distribution :=
  [⟨3, 1/6, []⟩, ⟨6, 1/6, []⟩, ⟨9, 1/6, []⟩, ⟨12, 1/6, []⟩,
   ⟨15, 1/6, []⟩, ⟨18, 1/6, []⟩]

/-- C2: independence of repeated occurrences.  For `x = die(6)` the
distribution of `x - x` is the 11-outcome triangular distribution of
the difference of two independent d6 rolls, not the constant-zero
distribution: each occurrence of the shared node contributes an
independent draw. -/
theorem C2_independence_of_shared_node :
    get_distribution (rollSub (dieRoll 6) (dieRoll 6)) = .ok twoDieDiffDist ∧
      twoDieDiffDist.length = 11 ∧
      get_distribution (rollSub (dieRoll 6) (dieRoll 6)) ≠ .ok [⟨0, 1, []⟩] := by
  refine ⟨?_, by rfl, ?_⟩
  · with_unfolding_all decide
  · with_unfolding_all decide

/-- C3 counterexample: in the final `BaseRoll` variant, `__rmul__` is
generic multiplication, so `3 * die(6)` yields the values 3,6,…,18
scaled by 3 — not the distribution of the sum of three independent d6
rolls claimed by the specification. -/
theorem C3_counterexample :
    get_distribution (baseRmul 3 (dieRoll 6)) = .ok threeTimesDieScaled ∧
      get_distribution (baseRmul 3 (dieRoll 6)) ≠ .ok threeDieSumDist := by
  constructor
  · with_unfolding_all decide
  · with_unfolding_all decide

/-- C3 amended: the repeat-sum code path exists only in the
`lib_stat` variant (`DieRoll.__rmul__`), where `3 * die(6)` builds a
chain of addition combinators over three independent copies of the die
and yields the 3..18 convolution; the final `BaseRoll` variant instead
multiplies outcome values. -/
theorem C3_amended_repeat_sum :
    get_distribution (libstatRmulDie 3 (dieRoll 6)) = .ok threeDieSumDist ∧
      get_distribution (baseRmul 3 (dieRoll 6)) = .ok threeTimesDieScaled := by
  constructor
  · with_unfolding_all decide
  · with_unfolding_all decide

/-- C5: `max(constant(14), die(20))` has one outcome of probability
14/20 at value 14 (all die faces up to 14 collapse onto the constant)
and probability 1/20 at each of 15..20. -/
theorem C5_max_constant_14_d20 :
    get_distribution (mkMaxRoll [constRoll 14, dieRoll 20]) =
      .ok [⟨14, 14/20, []⟩, ⟨15, 1/20, []⟩, ⟨16, 1/20, []⟩, ⟨17, 1/20, []⟩,
           ⟨18, 1/20, []⟩, ⟨19, 1/20, []⟩, ⟨20, 1/20, []⟩] := by
  with_unfolding_all decide

/-- C7: the coercion boundary accepts exactly integers and roll nodes,
but rejects everything else with `NotImplementedError`, which is not in
the Python TypeError class — the docstring (and the specification)
promise a TypeError. -/
theorem C7_ensure_roll_error_class (v : PyVal)
    (hv : (∀ n, v ≠ .intV n) ∧ (∀ r, v ≠ .rollV r)) :
    ensure_roll v = .error .notImplementedError ∧
      PyErrorKind.isTypeErrorClass .notImplementedError = false ∧
      (∀ n, ensure_roll (.intV n) = .ok (constRoll n)) ∧
      (∀ r, ensure_roll (.rollV r) = .ok r) := by
  refine ⟨?_, rfl, fun n => rfl, fun r => rfl⟩
  cases v with
  | intV n => exact absurd rfl (hv.1 n)
  | rollV r => exact absurd rfl (hv.2 r)
  | strV s => rfl
  | floatV q => rfl
  | noneV => rfl

/-- C7 witness: a string operand. -/
theorem C7_witness :
    ensure_roll (.strV "a bonus") = .error .notImplementedError ∧
      PyErrorKind.isTypeErrorClass .notImplementedError = false ∧
      (∀ n, ensure_roll (.intV n) = .ok (constRoll n)) ∧
      (∀ r, ensure_roll (.rollV r) = .ok r) :=
  C7_ensure_roll_error_class (.strV "a bonus")
    ⟨fun n h => PyVal.noConfusion h, fun r h => PyVal.noConfusion h⟩

/-- C8: max/min over zero operand rolls never yields a distribution:
the final variant fails at evaluation time inside `max([])`/`min([])`
(a ValueError, the DomainError class), and the `lib_stat` builders
reject the empty operand list at construction time with the same
error class. -/
theorem C8_empty_max_min_domain_error :
    get_distribution (mkMaxRoll []) = .error .valueError ∧
      get_distribution (mkMinRoll []) = .error .valueError ∧
      roll_max [] = .error .valueError ∧
      roll_min [] = .error .valueError ∧
      PyErrorKind.isDomainError .valueError = true :=
  ⟨rfl, rfl, rfl, rfl, rfl⟩

/-- C4 amended: every internal node (the merge step guarantees it) and
every integer-sided die leaf computes a distribution without duplicate
`(value, tags)` keys; a die built from an explicit face list may
violate this (see the counterexample). -/
theorem C4_unique_outcomes_amended :
    (∀ (cs : RollList) (comb : Combiner) (d : Distribution),
        get_distribution (.node cs comb) = .ok d → UniqueKeys d) ∧
    (∀ (n : Nat) (tags : List (String × List Int)) (r : Roll)
        (d : Distribution), mkDieInt n tags = .ok r →
        get_distribution r = .ok d → UniqueKeys d) := by
  constructor
  · intro cs comb d h
    cases cs with
    | nil =>
        rw [gd_node_nil] at h
        cases hc : comb [] with
        | error e => rw [hc] at h; exact absurd h (by simp [Except.map])
        | ok v =>
            rw [hc] at h
            have : d = [v] := by simpa [Except.map] using h.symm
            subst this
            exact List.pairwise_singleton _ _
    | cons c0 cs0 =>
        rw [gd_node_cons] at h
        cases hds : childDists (RollList.cons c0 cs0) with
        | error e =>
            rw [hds] at h
            exact absurd h (by simp [Bind.bind, Except.bind])
        | ok ds =>
            rw [hds] at h
            have hmerge : enumMerge comb ds = .ok d := by
              simpa [Bind.bind, Except.bind] using h
            rw [enumMerge_eq_foldlM] at hmerge
            exact foldlM_uniqueKeys (cartesian ds) [] d List.Pairwise.nil hmerge
  · intro n tags r d hdie hgd
    unfold mkDieInt mkDieRoll dieSidesDist at hdie
    by_cases h0 : (((List.range' 1 n).map
        (fun v => Sum.inl (Int.ofNat v))).countP
        (fun s : Int ⊕ RollValue =>
          match s with | .inl _ => true | _ => false)) = 0
    · rw [if_pos h0] at hdie
      exact absurd hdie (by simp [Except.map])
    · rw [if_neg h0] at hdie
      simp only [Except.map] at hdie
      cases hdie
      rw [gd_leaf] at hgd
      cases hgd
      rw [List.map_map, List.map_map]
      apply List.Pairwise.map _ _ (List.pairwise_lt_range' 1 n)
      intro a b hab hc
      have : ((a : Int)) = ((b : Int)) := hc.1
      omega

/-- C4 counterexample: the claim quantifies over every roll node,
leaves included, but a die built from the explicit face list `[1, 1]`
stores — and `get_distribution` returns — two outcomes with equal value
and equal (empty) tag set. -/
theorem C4_counterexample :
    mkDieRoll [Sum.inl 1, Sum.inl 1] []
        = .ok (Roll.leaf [⟨1, 1/2, []⟩, ⟨1, 1/2, []⟩]) ∧
      get_distribution (Roll.leaf [⟨1, 1/2, []⟩, ⟨1, 1/2, []⟩])
        = .ok [⟨1, 1/2, []⟩, ⟨1, 1/2, []⟩] ∧
      ¬ UniqueKeys [⟨1, 1/2, []⟩, ⟨1, 1/2, []⟩] := by
  refine ⟨by with_unfolding_all rfl, rfl, ?_⟩
  intro h
  rw [UniqueKeys, List.pairwise_cons] at h
  exact h.1 _ (List.mem_cons_self _ _) ⟨rfl, tagsEqual_refl _⟩

/-- C4 witness: a concrete internal node (d2 + constant 1). -/
theorem C4_witness :
    UniqueKeys [⟨2, (1 : ℚ)/2, []⟩, ⟨3, (1 : ℚ)/2, []⟩] :=
  C4_unique_outcomes_amended.1
    (.cons (dieRoll 2) (.cons (constRoll 1) .nil)) combiner_add
    [⟨2, (1 : ℚ)/2, []⟩, ⟨3, (1 : ℚ)/2, []⟩] (by with_unfolding_all decide)

theorem combiner_div_round_zero {x y : RollValue} (hy : y.value = 0) :
    combiner_div_round [x, y] = .error .zeroDivisionError := by
  unfold combiner_div_round combiner_from_value_combiner
    combiner_from_value_and_tag_combiner
  simp [hy, Bind.bind, Except.bind]

theorem combiner_div_round_ok {x y : RollValue} (hy : y.value ≠ 0) :
    ∃ v, combiner_div_round [x, y] = .ok v := by
  unfold combiner_div_round combiner_from_value_combiner
    combiner_from_value_and_tag_combiner
  have : (1 : Int) * y.value ≠ 0 := by simpa using hy
  simp only [List.map_cons, List.map_nil, List.foldl_cons, List.foldl_nil,
    Bind.bind, Except.bind]
  rw [if_neg this]
  exact ⟨_, rfl⟩

theorem combiner_mod_zero {x y : RollValue} (hy : y.value = 0) :
    combiner_mod [x, y] = .error .zeroDivisionError := by
  unfold combiner_mod combiner_from_value_combiner
    combiner_from_value_and_tag_combiner
  simp [hy, Bind.bind, Except.bind]

theorem combiner_mod_ok {x y : RollValue} (hy : y.value ≠ 0) :
    ∃ v, combiner_mod [x, y] = .ok v := by
  unfold combiner_mod combiner_from_value_combiner
    combiner_from_value_and_tag_combiner
  simp [hy, Bind.bind, Except.bind]

/-- C6: a zero-valued outcome in the divisor distribution makes the
whole distribution computation of a rounding-division or modulo node
fail with the ZeroDivisionError (the DomainError class) as soon as the
offending tuple is reached; no partial distribution is returned. -/
theorem C6_zero_divisor_fails (a b : Roll) (da db : Distribution)
    (ha : get_distribution a = .ok da) (hb : get_distribution b = .ok db)
    (hne : da ≠ []) (h0 : ∃ o ∈ db, o.value = 0) :
    get_distribution (rollDivRound a b) = .error .zeroDivisionError ∧
      get_distribution (rollMod a b) = .error .zeroDivisionError := by
  obtain ⟨x0, hx0⟩ := List.exists_mem_of_ne_nil da hne
  obtain ⟨o0, ho0, ho0v⟩ := h0
  have hmem : [x0, o0] ∈ cartesian [da, db] := mem_cartesian_two hx0 ho0
  constructor
  · rw [show rollDivRound a b
        = Roll.node (.cons a (.cons b .nil)) combiner_div_round from rfl,
      gd_node_two, ha, hb]
    show enumMerge combiner_div_round [da, db] = _
    rw [enumMerge_eq_foldlM]
    apply foldlM_error
    · exact ⟨[x0, o0], hmem, combiner_div_round_zero ho0v⟩
    · intro t ht
      obtain ⟨x, _, y, _, rfl⟩ := cartesian_two_shape ht
      by_cases hy : y.value = 0
      · exact Or.inr (combiner_div_round_zero hy)
      · exact Or.inl (combiner_div_round_ok hy)
  · rw [show rollMod a b
        = Roll.node (.cons a (.cons b .nil)) combiner_mod from rfl,
      gd_node_two, ha, hb]
    show enumMerge combiner_mod [da, db] = _
    rw [enumMerge_eq_foldlM]
    apply foldlM_error
    · exact ⟨[x0, o0], hmem, combiner_mod_zero ho0v⟩
    · intro t ht
      obtain ⟨x, _, y, _, rfl⟩ := cartesian_two_shape ht
      by_cases hy : y.value = 0
      · exact Or.inr (combiner_mod_zero hy)
      · exact Or.inl (combiner_mod_ok hy)

/-- C6 witness: a d6 divided by (or taken modulo) the constant 0. -/
theorem C6_witness :
    get_distribution (rollDivRound (dieRoll 6) (constRoll 0))
        = .error .zeroDivisionError ∧
      get_distribution (rollMod (dieRoll 6) (constRoll 0))
        = .error .zeroDivisionError :=
  C6_zero_divisor_fails (dieRoll 6) (constRoll 0) (dieDist 6) [⟨0, 1, []⟩]
    (by with_unfolding_all rfl) (by with_unfolding_all rfl)
    (by with_unfolding_all decide) ⟨⟨0, 1, []⟩, List.mem_singleton.mpr rfl, rfl⟩

theorem combiner_add_eval (tu : List RollValue) :
    combiner_add tu = .ok ⟨(tu.map (fun v => v.value)).sum,
      (tu.map (fun r => r.probability)).foldl (fun a b => a * b) 1,
      tag_combiner_additive (tu.map (fun r => r.tags))⟩ := rfl

theorem combContrib_ok {comb : Combiner} {tu : List RollValue}
    {o : RollValue} (h : comb tu = .ok o) (v : Int) (t : TagSet) :
    combContrib comb v t tu =
      if o.value = v ∧ tagsEqual o.tags t = true then o.probability else 0 := by
  unfold combContrib
  rw [h]

theorem combHasKey_ok {comb : Combiner} {tu : List RollValue}
    {o : RollValue} (h : comb tu = .ok o) (v : Int) (t : TagSet) :
    combHasKey comb v t tu = (o.value == v && tagsEqual o.tags t) := by
  unfold combHasKey
  rw [h]

theorem combContrib_add_swap (v : Int) (t : TagSet) (x y : RollValue) :
    combContrib combiner_add v t [x, y] = combContrib combiner_add v t [y, x] := by
  rw [combContrib_ok (combiner_add_eval [x, y]) v t,
    combContrib_ok (combiner_add_eval [y, x]) v t]
  have hv : ([x, y].map (fun v => v.value)).sum
      = ([y, x].map (fun v => v.value)).sum := by
    simp only [List.map_cons, List.map_nil, List.sum_cons, List.sum_nil]
    ring
  have hp : ([x, y].map (fun r => r.probability)).foldl (fun a b => a * b) 1
      = ([y, x].map (fun r => r.probability)).foldl (fun a b => a * b) 1 := by
    simp only [List.map_cons, List.map_nil, List.foldl_cons, List.foldl_nil]
    ring
  have ht : tagsEqual (tag_combiner_additive ([x, y].map (fun r => r.tags))) t
      = tagsEqual (tag_combiner_additive ([y, x].map (fun r => r.tags))) t := by
    apply tagsEqual_congr_left
    intro k
    rw [tget_additive, tget_additive]
    simp only [List.map_cons, List.map_nil, List.sum_cons, List.sum_nil]
    ring
  rw [hv, hp, ht]

theorem combHasKey_add_swap (v : Int) (t : TagSet) (x y : RollValue) :
    combHasKey combiner_add v t [x, y] = combHasKey combiner_add v t [y, x] := by
  rw [combHasKey_ok (combiner_add_eval [x, y]) v t,
    combHasKey_ok (combiner_add_eval [y, x]) v t]
  have hv : ([x, y].map (fun v => v.value)).sum
      = ([y, x].map (fun v => v.value)).sum := by
    simp only [List.map_cons, List.map_nil, List.sum_cons, List.sum_nil]
    ring
  have ht : tagsEqual (tag_combiner_additive ([x, y].map (fun r => r.tags))) t
      = tagsEqual (tag_combiner_additive ([y, x].map (fun r => r.tags))) t := by
    apply tagsEqual_congr_left
    intro k
    rw [tget_additive, tget_additive]
    simp only [List.map_cons, List.map_nil, List.sum_cons, List.sum_nil]
    ring
  rw [hv, ht]

theorem sum_map_add {α : Type} (l : List α) (f g : α → ℚ) :
    (l.map (fun x => f x + g x)).sum = (l.map f).sum + (l.map g).sum := by
  induction l with
  | nil => simp
  | cons x xs ih =>
      simp only [List.map_cons, List.sum_cons, ih]
      ring

theorem sum_sum_comm {α β : Type} (l1 : List α) (l2 : List β) (f : α → β → ℚ) :
    (l1.map (fun x => (l2.map (fun y => f x y)).sum)).sum
      = (l2.map (fun y => (l1.map (fun x => f x y)).sum)).sum := by
  induction l1 with
  | nil =>
      simp only [List.map_nil, List.sum_nil]
      symm
      apply List.sum_eq_zero
      intro q hq
      rw [List.mem_map] at hq
      obtain ⟨y, _, rfl⟩ := hq
      simp
  | cons x xs ih =>
      simp only [List.map_cons, List.sum_cons, ih]
      rw [← sum_map_add]

theorem any_any_comm {α β : Type} (l1 : List α) (l2 : List β)
    (f : α → β → Bool) :
    (l1.any fun x => l2.any fun y => f x y)
      = (l2.any fun y => l1.any fun x => f x y) := by
  rw [Bool.eq_iff_iff]
  simp only [List.any_eq_true]
  constructor
  · rintro ⟨x, hx, y, hy, hf⟩
    exact ⟨y, hy, x, hx, hf⟩
  · rintro ⟨y, hy, x, hx, hf⟩
    exact ⟨x, hx, y, hy, hf⟩

theorem massOf_congr_tags {t t' : TagSet} (h : tagsEqual t t' = true)
    (d : Distribution) (v : Int) : massOf d v t = massOf d v t' := by
  unfold massOf
  congr 1
  apply List.map_congr_left
  intro o _
  by_cases hc : o.value = v ∧ tagsEqual o.tags t = true
  · rw [if_pos hc, if_pos ⟨hc.1, tagsEqual_trans hc.2 h⟩]
  · rw [if_neg hc, if_neg (fun hc2 =>
      hc ⟨hc2.1, tagsEqual_trans hc2.2 (tagsEqual_symm h)⟩)]

/-- Equality of outcomes as triples, with the tag dicts compared
key-wise. -/
def outcomeEquiv (o1 o2 : RollValue) : Prop :=
  o1.value = o2.value ∧ o1.probability = o2.probability ∧
    tagsEqual o1.tags o2.tags = true

/-- Equality of distributions as unordered sets of
`(value, probability, tags)` outcomes. -/
def distSetEq (d1 d2 : Distribution) : Prop :=
  (∀ o ∈ d1, ∃ p ∈ d2, outcomeEquiv o p) ∧
    (∀ o ∈ d2, ∃ p ∈ d1, outcomeEquiv o p)

theorem hasKey_self {d : Distribution} {o : RollValue} (ho : o ∈ d) :
    hasKey d o.value o.tags = true := by
  unfold hasKey
  rw [List.any_eq_true]
  exact ⟨o, ho, by simp [tagsEqual_refl]⟩

theorem hasKey_elim {d : Distribution} {v : Int} {t : TagSet}
    (h : hasKey d v t = true) :
    ∃ o ∈ d, o.value = v ∧ tagsEqual o.tags t = true := by
  unfold hasKey at h
  rw [List.any_eq_true] at h
  obtain ⟨o, ho, hcond⟩ := h
  rw [Bool.and_eq_true] at hcond
  exact ⟨o, ho, beq_iff_eq.mp hcond.1, hcond.2⟩

theorem distSetEq_half {da db : Distribution} (hua : UniqueKeys da)
    (hub : UniqueKeys db)
    (hm : ∀ v t, massOf da v t = massOf db v t)
    (hk : ∀ v t, hasKey da v t = hasKey db v t) :
    ∀ o ∈ da, ∃ p ∈ db, outcomeEquiv o p := by
  intro o ho
  have h1 : hasKey db o.value o.tags = true := by
    rw [← hk]
    exact hasKey_self ho
  obtain ⟨p, hp, hpv, hpt⟩ := hasKey_elim h1
  refine ⟨p, hp, hpv.symm, ?_, tagsEqual_symm hpt⟩
  have e1 : massOf da o.value o.tags = o.probability :=
    massOf_of_mem_unique hua ho
  have e2 : massOf db p.value p.tags = p.probability :=
    massOf_of_mem_unique hub hp
  rw [hpv, massOf_congr_tags hpt] at e2
  rw [← e1, ← e2, hm]

theorem distSetEq_of {d1 d2 : Distribution} (hu1 : UniqueKeys d1)
    (hu2 : UniqueKeys d2)
    (hm : ∀ v t, massOf d1 v t = massOf d2 v t)
    (hk : ∀ v t, hasKey d1 v t = hasKey d2 v t) : distSetEq d1 d2 :=
  ⟨distSetEq_half hu1 hu2 hm hk,
   distSetEq_half hu2 hu1 (fun v t => (hm v t).symm) (fun v t => (hk v t).symm)⟩

theorem foldlM_total_ok {comb : Combiner}
    (h : ∀ tu, ∃ v, comb tu = .ok v) (l : List (List RollValue)) :
    ∀ acc, ∃ d, l.foldlM (mergeStep comb) acc = .ok d := by
  induction l with
  | nil => intro acc; exact ⟨acc, rfl⟩
  | cons tu ts ih =>
      intro acc
      obtain ⟨v, hv⟩ := h tu
      obtain ⟨d, hd⟩ := ih (addOutcome acc v)
      refine ⟨d, ?_⟩
      rw [List.foldlM_cons,
        show mergeStep comb acc tu = .ok (addOutcome acc v) by
          simp [mergeStep, hv, Bind.bind, Except.bind, pure, Except.pure]]
      exact hd

/-- C9: commutativity of add.  Whenever the two operand distributions
compute successfully, the distributions of `a + b` and of `b + a` both
compute successfully and are equal as unordered sets of
`(value, probability, tags)` outcomes. -/
theorem C9_add_commutes (a b : Roll) (da db : Distribution)
    (ha : get_distribution a = .ok da) (hb : get_distribution b = .ok db) :
    ∃ d1 d2, get_distribution (rollAdd a b) = .ok d1 ∧
      get_distribution (rollAdd b a) = .ok d2 ∧ distSetEq d1 d2 := by
  have htotal : ∀ tu, ∃ v, combiner_add tu = .ok v :=
    fun tu => ⟨_, combiner_add_eval tu⟩
  obtain ⟨d1, hd1⟩ := foldlM_total_ok htotal (cartesian [da, db]) []
  obtain ⟨d2, hd2⟩ := foldlM_total_ok htotal (cartesian [db, da]) []
  have hg1 : get_distribution (rollAdd a b) = .ok d1 := by
    rw [show rollAdd a b
        = Roll.node (.cons a (.cons b .nil)) combiner_add from rfl,
      gd_node_two, ha, hb]
    show enumMerge combiner_add [da, db] = _
    rw [enumMerge_eq_foldlM]
    exact hd1
  have hg2 : get_distribution (rollAdd b a) = .ok d2 := by
    rw [show rollAdd b a
        = Roll.node (.cons b (.cons a .nil)) combiner_add from rfl,
      gd_node_two, hb, ha]
    show enumMerge combiner_add [db, da] = _
    rw [enumMerge_eq_foldlM]
    exact hd2
  refine ⟨d1, d2, hg1, hg2, ?_⟩
  apply distSetEq_of
  · exact foldlM_uniqueKeys _ _ _ List.Pairwise.nil hd1
  · exact foldlM_uniqueKeys _ _ _ List.Pairwise.nil hd2
  · intro v t
    rw [foldlM_massOf v t _ _ _ hd1, foldlM_massOf v t _ _ _ hd2]
    have hz : massOf [] v t = 0 := rfl
    rw [hz]
    rw [cartesian_two, cartesian_two, sum_map_flatMap, sum_map_flatMap]
    have hL : (da.map (fun x => (((db.map (fun y => [x, y])).map
        (combContrib combiner_add v t))).sum)).sum
          = (da.map (fun x => (db.map (fun y =>
              combContrib combiner_add v t [x, y])).sum)).sum := by
      congr 1
      apply List.map_congr_left
      intro x _
      rw [List.map_map]
      rfl
    have hR : (db.map (fun y => (((da.map (fun x => [y, x])).map
        (combContrib combiner_add v t))).sum)).sum
          = (db.map (fun y => (da.map (fun x =>
              combContrib combiner_add v t [y, x])).sum)).sum := by
      congr 1
      apply List.map_congr_left
      intro y _
      rw [List.map_map]
      rfl
    rw [hL, hR]
    have hswap : (da.map (fun x => (db.map (fun y =>
        combContrib combiner_add v t [x, y])).sum)).sum
          = (da.map (fun x => (db.map (fun y =>
              combContrib combiner_add v t [y, x])).sum)).sum := by
      congr 1
      apply List.map_congr_left
      intro x _
      congr 1
      apply List.map_congr_left
      intro y _
      exact combContrib_add_swap v t x y
    rw [hswap]
    simpa using sum_sum_comm da db
      (fun x y => combContrib combiner_add v t [y, x])
  · intro v t
    rw [foldlM_hasKey v t _ _ _ hd1, foldlM_hasKey v t _ _ _ hd2]
    have hz : hasKey [] v t = false := rfl
    rw [hz, Bool.false_or, Bool.false_or]
    rw [cartesian_two, cartesian_two, List.any_flatMap, List.any_flatMap]
    have hL : (da.any fun x => (db.map (fun y => [x, y])).any
        (combHasKey combiner_add v t))
          = (da.any fun x => db.any (fun y =>
              combHasKey combiner_add v t [x, y])) := by
      congr 1
      funext x
      rw [Bool.eq_iff_iff, List.any_eq_true, List.any_eq_true]
      constructor
      · rintro ⟨tu, htu, hf⟩
        rw [List.mem_map] at htu
        obtain ⟨y, hy, rfl⟩ := htu
        exact ⟨y, hy, hf⟩
      · rintro ⟨y, hy, hf⟩
        exact ⟨[x, y], List.mem_map_of_mem _ hy, hf⟩
    have hR : (db.any fun y => (da.map (fun x => [y, x])).any
        (combHasKey combiner_add v t))
          = (db.any fun y => da.any (fun x =>
              combHasKey combiner_add v t [y, x])) := by
      congr 1
      funext y
      rw [Bool.eq_iff_iff, List.any_eq_true, List.any_eq_true]
      constructor
      · rintro ⟨tu, htu, hf⟩
        rw [List.mem_map] at htu
        obtain ⟨x, hx, rfl⟩ := htu
        exact ⟨x, hx, hf⟩
      · rintro ⟨x, hx, hf⟩
        exact ⟨[y, x], List.mem_map_of_mem _ hx, hf⟩
    rw [hL, hR]
    have hswap : (da.any fun x => db.any (fun y =>
        combHasKey combiner_add v t [x, y]))
          = (da.any fun x => db.any (fun y =>
              combHasKey combiner_add v t [y, x])) := by
      congr 1
      funext x
      congr 1
      funext y
      exact combHasKey_add_swap v t x y
    rw [hswap]
    exact any_any_comm da db (fun x y => combHasKey combiner_add v t [y, x])

/-- C9 witness: a d2 and the constant 5. -/
theorem C9_witness :
    ∃ d1 d2,
      get_distribution (rollAdd (dieRoll 2) (constRoll 5)) = .ok d1 ∧
      get_distribution (rollAdd (constRoll 5) (dieRoll 2)) = .ok d2 ∧
      distSetEq d1 d2 :=
  C9_add_commutes (dieRoll 2) (constRoll 5) (dieDist 2) [⟨5, 1, []⟩]
    (by with_unfolding_all rfl) (by with_unfolding_all rfl)

/-!
Store model for the aliasing behaviour of `get_distribution`.

Python outcomes are mutable dicts shared by reference: a die leaf
returns its stored side dicts themselves, and the merge step mutates
`existing["probability"] += ...` in place.  The default combiner of
`BaseRoll.__init__` (`lambda *args: args[0]`) returns its first input
dict unchanged — by reference — whereas every factory-built combiner
constructs a fresh dict.  The model makes object identity explicit: a
`Store` is the heap of outcome cells, distributions are lists of cell
addresses, leaves hold the addresses of their stored sides.
-/

/-- The heap of outcome dicts. -/
abbrev Store := List RollValue

/-- Dereference an outcome cell. -/
def readS (s : Store) (a : Nat) : RollValue := s.getD a ⟨0, 0, []⟩

mutual
/-- A roll tree with explicit object identity: a leaf holds the
addresses of its stored sides; a node's combiner is `none` for
Python's default `lambda *args: args[0]` (which aliases its first
input) and `some f` for a fresh-dict-building combiner. -/
inductive RollS where
  | leafS (addrs : List Nat)
  | nodeS (children : RollSList) (comb : Option Combiner)
/-- Children of a store-model node. -/
inductive RollSList where
  | nilS
  | consS (head : RollS) (tail : RollSList)
end

/-- View a `RollSList` as a plain list. -/
def RollSList.toListS : RollSList → List RollS
  | .nilS => []
  | .consS r rs => r :: rs.toListS

/-- Structural induction for `RollSList` alone. -/
def RollSList.inductionOnS {motive : RollSList → Prop} (rl : RollSList)
    (hnil : motive .nilS)
    (hcons : ∀ r rs, motive rs → motive (.consS r rs)) : motive rl :=
  match rl with
  | .nilS => hnil
  | .consS r rs => hcons r rs (RollSList.inductionOnS rs hnil hcons)

/-- The merge step on the store: find an aliased outcome with equal
value and key-wise equal tags; if found, bump its probability in place
(mutating the heap cell), else append the new address to the
distribution. -/
def mergeS (dist : List Nat) (s : Store) (na : Nat) (nv : RollValue) :
    List Nat × Store :=
  match dist.find? (fun e =>
    (readS s e).value == nv.value && tagsEqual (readS s e).tags nv.tags) with
  | some e => (dist,
      s.set e { readS s e with
        probability := (readS s e).probability + nv.probability })
  | none => (dist ++ [na], s)

/-- One enumeration step: the default combiner passes the first input
cell through by reference; a fresh combiner reads the tuple values,
builds a new cell and allocates it at the end of the store. -/
def stepS (comb : Option Combiner) (acc : List Nat × Store)
    (tu : List Nat) : Except PyErrorKind (List Nat × Store) :=
  match comb with
  | none =>
      match tu with
      | [] => .error .indexError
      | a :: _ => .ok (mergeS acc.1 acc.2 a (readS acc.2 a))
  | some f => do
      let v ← f (tu.map (readS acc.2))
      .ok (mergeS acc.1 (acc.2 ++ [v]) acc.2.length v)

mutual
/-- `get_distribution` on the store model: a leaf returns its stored
addresses (no copy), a childless node allocates the single combiner
result (or hits the IndexError of `args[0]` for the default combiner),
and an inner node threads the store through its children and then
through the enumeration of the cartesian product of address tuples. -/
def gdS : RollS → Store → Except PyErrorKind (List Nat × Store)
  | .leafS addrs, s => .ok (addrs, s)
  | .nodeS .nilS comb, s =>
      match comb with
      | none => .error .indexError
      | some f => do
          let v ← f []
          .ok ([s.length], s ++ [v])
  | .nodeS (.consS c cs) comb, s => do
      let (dss, s1) ← gdSList (.consS c cs) s
      (cartesian dss).foldlM (stepS comb) ([], s1)
/-- Address lists of a list of children, threading the store. -/
def gdSList : RollSList → Store → Except PyErrorKind (List (List Nat) × Store)
  | .nilS, s => .ok ([], s)
  | .consS r rs, s => do
      let (as, s1) ← gdS r s
      let (rest, s2) ← gdSList rs s1
      .ok (as :: rest, s2)
end

/-- Trees whose nodes all use fresh-dict-building combiners (every
standard operator, max/min, arithmetic and tag combiner — everything
except the default combiner of `BaseRoll.__init__`). -/
inductive FreshOnly : RollS → Prop where
  | leafS (addrs : List Nat) : FreshOnly (.leafS addrs)
  | nodeS {cs : RollSList} {f : Combiner} :
      (∀ c ∈ cs.toListS, FreshOnly c) → FreshOnly (.nodeS cs (some f))

theorem take_set_of_le {α : Type} (s : List α) (e : Nat) (v : α) (n : Nat)
    (h : n ≤ e) : (s.set e v).take n = s.take n := by
  induction s generalizing e n with
  | nil => rfl
  | cons x xs ih =>
      cases e with
      | zero =>
          have : n = 0 := Nat.le_zero.mp h
          subst this
          rfl
      | succ e' =>
          cases n with
          | zero => rfl
          | succ n' =>
              simp only [List.set_cons_succ, List.take_succ_cons]
              rw [ih e' n' (Nat.succ_le_succ_iff.mp h)]

theorem mergeS_preserve {dist : List Nat} {s : Store} {na : Nat}
    {nv : RollValue} {n0 : Nat} (hdist : ∀ e ∈ dist, n0 ≤ e)
    (hna : n0 ≤ na) (hn0 : n0 ≤ s.length) :
    (mergeS dist s na nv).2.take n0 = s.take n0 ∧
      (mergeS dist s na nv).2.length = s.length ∧
      (∀ e ∈ (mergeS dist s na nv).1, n0 ≤ e) := by
  unfold mergeS
  cases hf : dist.find? (fun e =>
      (readS s e).value == nv.value && tagsEqual (readS s e).tags nv.tags) with
  | some e =>
      have he : e ∈ dist := List.mem_of_find?_eq_some hf
      refine ⟨take_set_of_le s e _ n0 (hdist e he), List.length_set s e _, hdist⟩
  | none =>
      refine ⟨rfl, rfl, ?_⟩
      intro e he
      rcases List.mem_append.mp he with he | he
      · exact hdist e he
      · rw [List.mem_singleton.mp he]
        exact hna

theorem foldS_preserve (f : Combiner) (l : List (List Nat)) (n0 : Nat) :
    ∀ (acc res : List Nat × Store), n0 ≤ acc.2.length →
      (∀ e ∈ acc.1, n0 ≤ e) →
      l.foldlM (stepS (some f)) acc = .ok res →
      res.2.take n0 = acc.2.take n0 ∧ n0 ≤ res.2.length := by
  induction l with
  | nil =>
      intro acc res _ _ h
      simp only [List.foldlM_nil] at h
      cases h
      exact ⟨rfl, by assumption⟩
  | cons tu ts ih =>
      intro acc res hlen hdist h
      rw [List.foldlM_cons] at h
      cases hfv : f (tu.map (readS acc.2)) with
      | error e =>
          rw [show stepS (some f) acc tu = .error e by
            simp [stepS, hfv, Bind.bind, Except.bind]] at h
          exact absurd h (by simp [Bind.bind, Except.bind])
      | ok v =>
          rw [show stepS (some f) acc tu
              = .ok (mergeS acc.1 (acc.2 ++ [v]) acc.2.length v) by
            simp [stepS, hfv, Bind.bind, Except.bind, pure, Except.pure]] at h
          have h2 : ts.foldlM (stepS (some f))
              (mergeS acc.1 (acc.2 ++ [v]) acc.2.length v) = .ok res := by
            simpa [Bind.bind, Except.bind] using h
          have hlen2 : n0 ≤ (acc.2 ++ [v]).length := by
            rw [List.length_append]
            omega
          have hmp := @mergeS_preserve acc.1 (acc.2 ++ [v]) acc.2.length v n0
            hdist (le_trans hlen (le_refl _)) hlen2
          have hstep := ih _ res
            (by rw [hmp.2.1]; exact hlen2) hmp.2.2 h2
          constructor
          · rw [hstep.1, hmp.1, List.take_append_of_le_length hlen]
          · rw [← hmp.2.1] at hlen2
            exact hstep.2


theorem gdSList_preserve (rl : RollSList) :
    ∀ (s : Store) (dss : List (List Nat)) (s1 : Store),
      gdSList rl s = .ok (dss, s1) →
      (∀ c ∈ rl.toListS, ∀ (s2 : Store) (as : List Nat) (s3 : Store),
        gdS c s2 = .ok (as, s3) →
        s3.take s2.length = s2 ∧ s2.length ≤ s3.length) →
      s1.take s.length = s ∧ s.length ≤ s1.length := by
  induction rl using RollSList.inductionOnS with
  | hnil =>
      intro s dss s1 h _
      simp only [gdSList] at h
      cases h
      exact ⟨List.take_length s, le_refl _⟩
  | hcons r rs ih =>
      intro s dss s1 h hP
      simp only [gdSList] at h
      cases hr : gdS r s with
      | error e => rw [hr] at h; exact absurd h (by simp [Bind.bind, Except.bind])
      | ok p =>
          rw [hr] at h
          obtain ⟨as, sa⟩ := p
          replace h : (gdSList rs sa >>= fun q =>
              Except.ok (as :: q.1, q.2)) = Except.ok (dss, s1) := h
          cases hrs : gdSList rs sa with
          | error e =>
              rw [hrs] at h
              exact absurd h (by simp [Bind.bind, Except.bind])
          | ok q =>
              rw [hrs] at h
              obtain ⟨rest, sb⟩ := q
              have : dss = as :: rest ∧ s1 = sb := by
                have h2 := h
                simp [Bind.bind, Except.bind, pure, Except.pure] at h2
                tauto
              obtain ⟨rfl, rfl⟩ := this
              have hhead := hP r (List.mem_cons_self r rs.toListS) s as sa hr
              have htail := ih sa rest s1 hrs
                (fun c hc => hP c (List.mem_cons_of_mem r hc))
              constructor
              · calc s1.take s.length
                    = (s1.take sa.length).take s.length := by
                      rw [List.take_take]
                      congr 1
                      omega
                  _ = sa.take s.length := by rw [htail.1]
                  _ = s := hhead.1
              · exact le_trans hhead.2 htail.2

/-- C10 amended, positive part: for a tree whose nodes all use
fresh-dict-building combiners, a `get_distribution` run only allocates
and mutates cells created after it started: the whole pre-existing
store — in particular every outcome of every previously returned
distribution — is unchanged. -/
theorem C10_fresh_combiners_preserve {r : RollS} (h : FreshOnly r) :
    ∀ (s : Store) (as : List Nat) (s' : Store),
      gdS r s = .ok (as, s') → s'.take s.length = s ∧ s.length ≤ s'.length := by
  induction h with
  | leafS addrs =>
      intro s as s' h
      simp only [gdS] at h
      cases h
      exact ⟨List.take_length s, le_refl _⟩
  | @nodeS cs f hcs ih =>
      intro s as s' h
      cases cs with
      | nilS =>
          simp only [gdS] at h
          cases hf : f [] with
          | error e =>
              rw [hf] at h
              exact absurd h (by simp [Bind.bind, Except.bind])
          | ok v =>
              rw [hf] at h
              have : as = [s.length] ∧ s' = s ++ [v] := by
                have := h
                simp [Bind.bind, Except.bind, pure, Except.pure] at this
                tauto
              obtain ⟨rfl, rfl⟩ := this
              exact ⟨List.take_append_of_le_length (le_refl _) |>.trans
                (List.take_length s), by simp⟩
      | consS c0 cs0 =>
          simp only [gdS] at h
          cases hds : gdSList (RollSList.consS c0 cs0) s with
          | error e =>
              rw [hds] at h
              exact absurd h (by simp [Bind.bind, Except.bind])
          | ok p =>
              rw [hds] at h
              obtain ⟨dss, s1⟩ := p
              have hfold : (cartesian dss).foldlM (stepS (some f)) ([], s1)
                  = .ok (as, s') := by
                simpa [Bind.bind, Except.bind] using h
              have hch := gdSList_preserve (RollSList.consS c0 cs0) s dss s1 hds
                (fun c hc s2 as2 s3 h3 => ih c hc s2 as2 s3 h3)
              have hstep := foldS_preserve f (cartesian dss) s.length
                ([], s1) (as, s') hch.2 (fun e he => absurd he (List.not_mem_nil e))
                hfold
              exact ⟨hstep.1.trans hch.1, hstep.2⟩

/-- The stored heap cells of a d6 leaf: six outcome dicts. -/
def d6Store : Store := (List.range' 1 6).map (fun v => ⟨Int.ofNat v, 1/6, []⟩)

/-- A d6 whose stored sides are the cells 0..5 of `d6Store`. -/
def d6LeafS : RollS := .leafS [0, 1, 2, 3, 4, 5]

/-- `BaseRoll(d, d)` with the default combiner
`lambda *args: args[0]`: the node the counterexample evaluates. -/
def defaultCombTree : RollS :=
  .nodeS (.consS d6LeafS (.consS d6LeafS .nilS)) none

/-- `d - d` built with the standard (fresh-dict) subtraction combiner. -/
def freshDemoTree : RollS :=
  .nodeS (.consS d6LeafS (.consS d6LeafS .nilS)) (some combiner_sub)

def isOkE {ε α : Type} : Except ε α → Bool
  | .ok _ => true
  | .error _ => false

/-- C10 counterexample: the die leaf first returns its stored outcome
cells unchanged (probability 1/6 at cell 0); evaluating a parent node
that uses the public default combiner of `BaseRoll.__init__` then
mutates those same cells in place — afterwards cell 0 of the
previously returned distribution holds probability 16/3. -/
theorem C10_counterexample :
    gdS d6LeafS d6Store = .ok ([0, 1, 2, 3, 4, 5], d6Store) ∧
      readS d6Store 0 = ⟨1, 1/6, []⟩ ∧
      (gdS defaultCombTree d6Store).map (fun rs => readS rs.2 0)
        = .ok ⟨1, 16/3, []⟩ ∧
      ((16 : ℚ)/3 ≠ 1/6) := by
  refine ⟨rfl, by with_unfolding_all rfl, ?_, by with_unfolding_all decide⟩
  with_unfolding_all decide

/-- C10 amended witness: evaluating `d - d` with the standard fresh
subtraction combiner leaves the entire pre-existing store — the die's
previously returned outcome cells included — unchanged. -/
theorem C10_witness :
    ∃ (as : List Nat) (s' : Store),
      gdS freshDemoTree d6Store = .ok (as, s') ∧
        s'.take d6Store.length = d6Store := by
  have hf : FreshOnly freshDemoTree := by
    apply FreshOnly.nodeS
    intro c hc
    simp only [RollSList.toListS, List.mem_cons, List.not_mem_nil,
      or_false] at hc
    rcases hc with rfl | rfl
    · exact FreshOnly.leafS _
    · exact FreshOnly.leafS _
  have hok : isOkE (gdS freshDemoTree d6Store) = true := by
    with_unfolding_all decide
  cases hgd : gdS freshDemoTree d6Store with
  | error e =>
      rw [hgd] at hok
      exact absurd hok (by simp [isOkE])
  | ok p =>
      obtain ⟨as0, s0⟩ := p
      refine ⟨as0, s0, rfl, ?_⟩
      exact (C10_fresh_combiners_preserve hf d6Store as0 s0 hgd).1

end RollCalc
